import Mathlib

/-!
# OpenTok Go SDK: token issuer configuration and JWT construction

A shallow embedding of `opentok/opentok.go` and of the library functions it
calls (`time`, `github.com/google/uuid`, `encoding/json`,
`github.com/dgrijalva/jwt-go`, `encoding/base64`, `crypto/hmac`,
`crypto/sha256`).

* A Go `string` is a finite sequence of bytes (`GoString`), not a sequence of
  Unicode characters: a Go string may hold arbitrary bytes.
* A Go interface value (`HttpDoer`) is either `nil` or a dynamic value; the
  dynamic values are identified by a number, `http.DefaultClient` being `0`.
* Methods with a pointer receiver take the instance and return the instance
  they leave behind together with their Go result.
* The two effects of `jwtToken`, reading the wall clock and drawing 16 random
  bytes, are explicit arguments.
* Machine integers are `Int`/`Nat` with explicit wraparound.
-/

namespace Opentok

/-! ## Go strings -/

/-- One byte of a Go string. -/
abbrev Byte := Fin 256

/-- A Go `string`: an immutable sequence of bytes. -/
abbrev GoString := List Byte

/-- The byte with the given value (taken modulo 256). -/
def byte (n : Nat) : Byte := Fin.ofNat n

/-- The bytes of a Go string literal made of ASCII characters. -/
def ascii (s : String) : GoString :=
  s.toList.map (fun c => byte c.toNat)

/-! ## The configuration object (`opentok.go`, lines 12-61) -/

/-- Go constant `defaultAPIHost`. -/
def defaultAPIHost : GoString := ascii "https://api.opentok.com"

/-- Go constant `tokenSentinel`. -/
def tokenSentinel : GoString := ascii "T1=="

/-- Go type `issueType`, a named string type. -/
abbrev issueType := GoString

/-- Go constant `projectToken`. -/
def projectToken : issueType := ascii "project"

/-- Go constant `accountToken`. -/
def accountToken : issueType := ascii "account"

/-- A value of the Go interface type `HttpDoer`: `none` is the nil interface,
`some c` a non-nil interface value holding the client identified by `c`. -/
abbrev HttpDoer := Option Nat

/-- Go variable `http.DefaultClient`, a non-nil `*http.Client`. -/
def DefaultClient : HttpDoer := some 0

/-- Go struct `OpenTok`. -/
structure OpenTok where
  apiKey : GoString
  apiSecret : GoString
  apiHost : GoString
  httpClient : HttpDoer
  deriving DecidableEq, Repr

/-- Go function `New`. -/
def New (apiKey apiSecret : GoString) : OpenTok :=
  { apiKey := apiKey, apiSecret := apiSecret, apiHost := defaultAPIHost,
    httpClient := DefaultClient }

/-- A Go `error` value: `none` is nil, `some msg` an error with that message. -/
abbrev GoError := Option GoString

/-- Go method `(*OpenTok).SetAPIHost`: the instance after the call and the
returned error. -/
def SetAPIHost (ot : OpenTok) (url : GoString) : OpenTok × GoError :=
  if url = [] then
    (ot, some (ascii "OpenTok API Host cannot be empty"))
  else
    ({ ot with apiHost := url }, none)

/-- Go method `(*OpenTok).SetHttpClient`: the instance after the call. -/
def SetHttpClient (ot : OpenTok) (client : HttpDoer) : OpenTok :=
  if client ≠ none then { ot with httpClient := client } else ot

/-! ## Go package `time`

`time.Time` keeps a wall-clock reading in two machine words.  With the
`hasMonotonic` bit set, `wall` packs a 33-bit count of seconds since year 1885
and a 30-bit nanosecond count and `ext` is a monotonic reading; with the bit
clear, `ext` is the signed 64-bit count of seconds since January 1 of year 1.
The three bit fields of `wall` are separate fields here. -/

/-- The value of a Go `int64` expression: two's complement wraparound. -/
def wrapInt64 (x : Int) : Int := (x + 2 ^ 63) % 2 ^ 64 - 2 ^ 63

/-- Go conversion `uint64(x)` of an `int64`. -/
def toUint64 (x : Int) : Nat := (x % 2 ^ 64).toNat

/-- Go constant `time.unixToInternal`: seconds from year 1 to 1970. -/
def unixToInternal : Int := (1969 * 365 + 1969 / 4 - 1969 / 100 + 1969 / 400) * 86400

/-- Go constant `time.internalToUnix`. -/
def internalToUnix : Int := -unixToInternal

/-- Go constant `time.wallToInternal`: seconds from year 1 to 1885. -/
def wallToInternal : Int := (1884 * 365 + 1884 / 4 - 1884 / 100 + 1884 / 400) * 86400

/-- Go constant `time.minWall`. -/
def minWall : Int := wallToInternal

/-- What the runtime's `now()` returns: the wall clock as Unix seconds
(`int64`) and nanoseconds within the second (`int32`), and the monotonic
clock (already relative to process start). -/
structure Clock where
  sec : Int
  nsec : Nat
  mono : Int
  deriving DecidableEq, Repr

/-- Go struct `time.Time` (the location pointer left out: only UTC is used). -/
structure Time where
  hasMonotonic : Bool
  wallSec : Nat
  nsec : Nat
  ext : Int
  deriving DecidableEq, Repr

/-- Go type `time.Duration`: an `int64` count of nanoseconds. -/
abbrev Duration := Int

/-- Go constant `time.Minute`. -/
def Minute : Duration := 60 * 1000000000

/-- Go function `time.Now`. -/
def Now (c : Clock) : Time :=
  let sec := wrapInt64 (c.sec + (unixToInternal - minWall))
  if toUint64 sec / 2 ^ 33 ≠ 0 then
    { hasMonotonic := false, wallSec := 0, nsec := c.nsec, ext := wrapInt64 (sec + minWall) }
  else
    { hasMonotonic := true, wallSec := sec.toNat, nsec := c.nsec, ext := c.mono }

/-- Go method `Time.sec`: seconds since January 1 of year 1. -/
def Time.sec (t : Time) : Int :=
  if t.hasMonotonic then wrapInt64 (wallToInternal + t.wallSec) else t.ext

/-- Go method `Time.stripMono`. -/
def Time.stripMono (t : Time) : Time :=
  if t.hasMonotonic then
    { hasMonotonic := false, wallSec := 0, nsec := t.nsec, ext := t.sec }
  else t

/-- Go method `Time.UTC`: sets the location, which strips the monotonic
reading. -/
def Time.UTC (t : Time) : Time := t.stripMono

/-- Go method `Time.Unix`: seconds since January 1, 1970 UTC. -/
def Time.Unix (t : Time) : Int := wrapInt64 (t.sec + internalToUnix)

/-- Go method `Time.addSec`, with the overflow check of recent Go versions: a
sum that leaves `int64` is held at the largest or smallest value.  (Older
versions add with wraparound; the two agree whenever the sum is an `int64`.) -/
def Time.addSec (t : Time) (d : Int) : Time :=
  let viaExt (t : Time) : Time :=
    let sum := wrapInt64 (t.ext + d)
    if decide (sum > t.ext) = decide (d > 0) then { t with ext := sum }
    else if d > 0 then { t with ext := 2 ^ 63 - 1 }
    else { t with ext := -(2 ^ 63 - 1) }
  if t.hasMonotonic then
    let dsec := wrapInt64 (t.wallSec + d)
    if 0 ≤ dsec ∧ dsec ≤ 2 ^ 33 - 1 then { t with wallSec := dsec.toNat }
    else viaExt t.stripMono
  else viaExt t

/-- Go method `Time.Add`. -/
def Time.Add (t : Time) (d : Duration) : Time :=
  let dsec := Int.tdiv d 1000000000
  let nsec : Int := t.nsec + Int.tmod d 1000000000
  let dn : Int × Int :=
    if nsec ≥ 1000000000 then (dsec + 1, nsec - 1000000000)
    else if nsec < 0 then (dsec - 1, nsec + 1000000000)
    else (dsec, nsec)
  let t1 : Time := { t with nsec := dn.2.toNat }
  let t2 := t1.addSec dn.1
  if t2.hasMonotonic then
    let te := wrapInt64 (t2.ext + d)
    if (d < 0 ∧ te > t2.ext) ∨ (d > 0 ∧ te < t2.ext) then t2.stripMono
    else { t2 with ext := te }
  else t2

/-! ## Package `github.com/google/uuid` -/

/-- Go type `uuid.UUID`, an array of 16 bytes. -/
abbrev UUID := Fin 16 → Byte

/-- Go function `uuid.New` (`NewRandom`) on the 16 bytes read from the random
source: byte 6 gets version 4, byte 8 the RFC 4122 variant. -/
def uuidNew (rnd : Fin 16 → Byte) : UUID := fun i =>
  if i = 6 then byte (rnd 6 % 16 + 64)
  else if i = 8 then byte (rnd 8 % 64 + 128)
  else rnd i

/-- One digit of Go's `hex.Encode` table `0123456789abcdef`. -/
def hexDigit (n : Nat) : Byte := if n < 10 then byte (48 + n) else byte (87 + n)

/-- Go function `hex.Encode` on the bytes of `u` at the indices `is`. -/
def hexEncode (u : UUID) (is : List (Fin 16)) : GoString :=
  is.flatMap (fun i => [hexDigit ((u i).val / 16), hexDigit ((u i).val % 16)])

/-- Go method `UUID.String`: `xxxxxxxx-xxxx-xxxx-xxxx-xxxxxxxxxxxx`. -/
def UUID.String (u : UUID) : GoString :=
  hexEncode u [0, 1, 2, 3] ++ ascii "-" ++ hexEncode u [4, 5] ++ ascii "-" ++
  hexEncode u [6, 7] ++ ascii "-" ++ hexEncode u [8, 9] ++ ascii "-" ++
  hexEncode u [10, 11, 12, 13, 14, 15]

/-! ## Package `encoding/base64`, as used by jwt-go's `EncodeSegment` and
`DecodeSegment`

`EncodeSegment` is URL-safe base64 with the trailing `=` padding trimmed and
`DecodeSegment` puts the padding back before decoding; the two are modelled
directly on the unpadded text. -/

/-- The character of the URL-safe alphabet
`A-Z a-z 0-9 - _` for a 6-bit value. -/
def b64Char (v : Nat) : Byte :=
  if v < 26 then byte (65 + v)
  else if v < 52 then byte (97 + (v - 26))
  else if v < 62 then byte (48 + (v - 52))
  else if v = 62 then byte 45
  else byte 95

/-- The 6-bit value of a character of the URL-safe alphabet. -/
def b64Val (c : Byte) : Option Nat :=
  if 65 ≤ c.val ∧ c.val ≤ 90 then some (c.val - 65)
  else if 97 ≤ c.val ∧ c.val ≤ 122 then some (c.val - 97 + 26)
  else if 48 ≤ c.val ∧ c.val ≤ 57 then some (c.val - 48 + 52)
  else if c.val = 45 then some 62
  else if c.val = 95 then some 63
  else none

/-- Function `jwt.EncodeSegment`: three bytes become four characters, a last
group of one or two bytes becomes two or three characters. -/
def EncodeSegment : List Byte → GoString
  | [] => []
  | [a] => [b64Char (a.val / 4), b64Char (a.val % 4 * 16)]
  | [a, b] =>
    [b64Char (a.val / 4), b64Char (a.val % 4 * 16 + b.val / 16), b64Char (b.val % 16 * 4)]
  | a :: b :: c :: rest =>
    b64Char (a.val / 4) :: b64Char (a.val % 4 * 16 + b.val / 16) ::
      b64Char (b.val % 16 * 4 + c.val / 64) :: b64Char (c.val % 64) :: EncodeSegment rest

/-- Function `jwt.DecodeSegment`: `none` stands for a decoding error
(a character outside the alphabet, or a length of 1 modulo 4).  Go's decoder
also skips carriage returns and line feeds, which no segment written by
`EncodeSegment` contains; here they are outside the alphabet. -/
def DecodeSegment : GoString → Option (List Byte)
  | [] => some []
  | [_] => none
  | [c0, c1] =>
    match b64Val c0, b64Val c1 with
    | some v0, some v1 => some [byte (v0 * 4 + v1 / 16)]
    | _, _ => none
  | [c0, c1, c2] =>
    match b64Val c0, b64Val c1, b64Val c2 with
    | some v0, some v1, some v2 =>
      some [byte (v0 * 4 + v1 / 16), byte (v1 % 16 * 16 + v2 / 4)]
    | _, _, _ => none
  | c0 :: c1 :: c2 :: c3 :: rest =>
    match b64Val c0, b64Val c1, b64Val c2, b64Val c3, DecodeSegment rest with
    | some v0, some v1, some v2, some v3, some tail =>
      some (byte (v0 * 4 + v1 / 16) :: byte (v1 % 16 * 16 + v2 / 4) ::
        byte (v2 % 4 * 64 + v3) :: tail)
    | _, _, _, _, _ => none

/-! ## Packages `crypto/sha256` and `crypto/hmac`

SHA-256 as in FIPS 180-4, on 32-bit words kept as natural numbers below
`2 ^ 32`; HMAC as in RFC 2104 with the 64-byte block of SHA-256. -/

/-- Addition of `uint32` values. -/
def add32 (a b : Nat) : Nat := (a + b) % 2 ^ 32

/-- Rotation of a `uint32` to the right by `n` bits. -/
def rotr (x n : Nat) : Nat := (x >>> n ||| x <<< (32 - n)) % 2 ^ 32

/-- Bitwise complement of a `uint32`. -/
def not32 (x : Nat) : Nat := 2 ^ 32 - 1 - x % 2 ^ 32

/-- The 64 round constants of SHA-256. -/
def sha256K : List Nat :=
  [0x428a2f98, 0x71374491, 0xb5c0fbcf, 0xe9b5dba5, 0x3956c25b, 0x59f111f1, 0x923f82a4,
   0xab1c5ed5, 0xd807aa98, 0x12835b01, 0x243185be, 0x550c7dc3, 0x72be5d74, 0x80deb1fe,
   0x9bdc06a7, 0xc19bf174, 0xe49b69c1, 0xefbe4786, 0x0fc19dc6, 0x240ca1cc, 0x2de92c6f,
   0x4a7484aa, 0x5cb0a9dc, 0x76f988da, 0x983e5152, 0xa831c66d, 0xb00327c8, 0xbf597fc7,
   0xc6e00bf3, 0xd5a79147, 0x06ca6351, 0x14292967, 0x27b70a85, 0x2e1b2138, 0x4d2c6dfc,
   0x53380d13, 0x650a7354, 0x766a0abb, 0x81c2c92e, 0x92722c85, 0xa2bfe8a1, 0xa81a664b,
   0xc24b8b70, 0xc76c51a3, 0xd192e819, 0xd6990624, 0xf40e3585, 0x106aa070, 0x19a4c116,
   0x1e376c08, 0x2748774c, 0x34b0bcb5, 0x391c0cb3, 0x4ed8aa4a, 0x5b9cca4f, 0x682e6ff3,
   0x748f82ee, 0x78a5636f, 0x84c87814, 0x8cc70208, 0x90befffa, 0xa4506ceb, 0xbef9a3f7,
   0xc67178f2]

/-- The big-endian bytes of a number, `n` of them. -/
def bigEndian : Nat → Nat → List Byte
  | 0, _ => []
  | n + 1, x => byte (x / 256 ^ n) :: bigEndian n x

/-- The message followed by the byte `0x80`, zero bytes up to 56 modulo 64,
and the bit length as a 64-bit big-endian number. -/
def sha256Pad (msg : List Byte) : List Byte :=
  msg ++ [byte 0x80] ++ List.replicate ((119 - msg.length % 64) % 64) (byte 0) ++
    bigEndian 8 (msg.length * 8 % 2 ^ 64)

/-- The big-endian 32-bit words of a byte sequence. -/
def toWords : List Byte → List Nat
  | a :: b :: c :: d :: rest =>
    (a.val * 2 ^ 24 + b.val * 2 ^ 16 + c.val * 2 ^ 8 + d.val) :: toWords rest
  | _ => []

/-- The message schedule: `n` more words after the ones in `w`. -/
def sha256Schedule : Nat → List Nat → List Nat
  | 0, w => w
  | n + 1, w =>
    let t := w.length
    let w2 := w.getD (t - 2) 0
    let w7 := w.getD (t - 7) 0
    let w15 := w.getD (t - 15) 0
    let w16 := w.getD (t - 16) 0
    let s0 := rotr w15 7 ^^^ rotr w15 18 ^^^ w15 >>> 3
    let s1 := rotr w2 17 ^^^ rotr w2 19 ^^^ w2 >>> 10
    sha256Schedule n (w ++ [add32 (add32 (add32 s1 w7) s0) w16])

/-- The eight working variables `a` to `h`. -/
structure Sha256State where
  a : Nat
  b : Nat
  c : Nat
  d : Nat
  e : Nat
  f : Nat
  g : Nat
  h : Nat
  deriving DecidableEq, Repr

/-- One round of the compression function, with round constant `k` and
schedule word `w`. -/
def sha256Round (s : Sha256State) (kw : Nat × Nat) : Sha256State :=
  let s1 := rotr s.e 6 ^^^ rotr s.e 11 ^^^ rotr s.e 25
  let ch := (s.e &&& s.f) ^^^ (not32 s.e &&& s.g)
  let t1 := add32 (add32 (add32 (add32 s.h s1) ch) kw.1) kw.2
  let s0 := rotr s.a 2 ^^^ rotr s.a 13 ^^^ rotr s.a 22
  let maj := (s.a &&& s.b) ^^^ (s.a &&& s.c) ^^^ (s.b &&& s.c)
  let t2 := add32 s0 maj
  { a := add32 t1 t2, b := s.a, c := s.b, d := s.c, e := add32 s.d t1, f := s.e, g := s.f,
    h := s.g }

/-- The compression of one 64-byte block into the hash value. -/
def sha256Block (hash : Sha256State) (block : List Byte) : Sha256State :=
  let w := sha256Schedule 48 (toWords block)
  let s := (sha256K.zip w).foldl sha256Round hash
  { a := add32 hash.a s.a, b := add32 hash.b s.b, c := add32 hash.c s.c,
    d := add32 hash.d s.d, e := add32 hash.e s.e, f := add32 hash.f s.f,
    g := add32 hash.g s.g, h := add32 hash.h s.h }

/-- The blocks of `n` elements of a list, read with at most `fuel` steps. -/
def chunks {α : Type} (n : Nat) : Nat → List α → List (List α)
  | 0, _ => []
  | _, [] => []
  | fuel + 1, x :: xs => (x :: xs).take n :: chunks n fuel ((x :: xs).drop n)

/-- Go function `sha256.Sum256`: the 32-byte digest of a message. -/
def sha256 (msg : List Byte) : List Byte :=
  let padded := sha256Pad msg
  let s := (chunks 64 padded.length padded).foldl sha256Block
    { a := 0x6a09e667, b := 0xbb67ae85, c := 0x3c6ef372, d := 0xa54ff53a,
      e := 0x510e527f, f := 0x9b05688c, g := 0x1f83d9ab, h := 0x5be0cd19 }
  [s.a, s.b, s.c, s.d, s.e, s.f, s.g, s.h].flatMap (bigEndian 4)

/-- The key block of HMAC: a key longer than the 64-byte block is hashed
first, and the key is filled with zero bytes up to 64 bytes. -/
def hmacKeyBlock (key : List Byte) : List Byte :=
  let k := if key.length > 64 then sha256 key else key
  k ++ List.replicate (64 - k.length) (byte 0)

/-- Go `hmac.New(sha256.New, key)`, `Write(msg)`, `Sum(nil)`: the HMAC-SHA256
tag of `msg` under `key`. -/
def hmacSHA256 (key msg : List Byte) : List Byte :=
  let k := hmacKeyBlock key
  let ipad := k.map (fun b => byte (b.val ^^^ 0x36))
  let opad := k.map (fun b => byte (b.val ^^^ 0x5c))
  sha256 (opad ++ sha256 (ipad ++ msg))

/-! ## Package `unicode/utf8` -/

/-- Go constant `utf8.RuneError`, the replacement character U+FFFD. -/
def RuneError : Nat := 0xFFFD

/-- Whether `b` lies in `lo..hi`. -/
def inRange (lo hi : Nat) (b : Byte) : Bool := decide (lo ≤ b.val ∧ b.val ≤ hi)

/-- Go function `utf8.DecodeRune` (`DecodeRuneInString`): the first rune of
the bytes and its width.  An empty input gives `(RuneError, 0)`, an invalid
encoding `(RuneError, 1)`.  The second byte of a three- or four-byte sequence
is held to the accept range of its first byte, which rules out overlong
forms, surrogates and values above U+10FFFF. -/
def DecodeRune : List Byte → Nat × Nat
  | [] => (RuneError, 0)
  | b0 :: rest =>
    if b0.val < 0x80 then (b0.val, 1)
    else if b0.val < 0xC2 then (RuneError, 1)
    else if b0.val < 0xE0 then
      match rest with
      | b1 :: _ =>
        if inRange 0x80 0xBF b1 then ((b0.val - 0xC0) * 64 + (b1.val - 0x80), 2)
        else (RuneError, 1)
      | [] => (RuneError, 1)
    else if b0.val < 0xF0 then
      match rest with
      | b1 :: b2 :: _ =>
        if inRange (if b0.val = 0xE0 then 0xA0 else 0x80) (if b0.val = 0xED then 0x9F else 0xBF) b1
            ∧ inRange 0x80 0xBF b2 then
          ((b0.val - 0xE0) * 4096 + (b1.val - 0x80) * 64 + (b2.val - 0x80), 3)
        else (RuneError, 1)
      | _ => (RuneError, 1)
    else if b0.val < 0xF5 then
      match rest with
      | b1 :: b2 :: b3 :: _ =>
        if inRange (if b0.val = 0xF0 then 0x90 else 0x80) (if b0.val = 0xF4 then 0x8F else 0xBF) b1
            ∧ inRange 0x80 0xBF b2 ∧ inRange 0x80 0xBF b3 then
          ((b0.val - 0xF0) * 262144 + (b1.val - 0x80) * 4096 + (b2.val - 0x80) * 64
            + (b3.val - 0x80), 4)
        else (RuneError, 1)
      | _ => (RuneError, 1)
    else (RuneError, 1)

/-- The three-byte encoding of a rune below `0x10000`. -/
def encode3 (r : Nat) : List Byte :=
  [byte (0xE0 + r / 4096), byte (0x80 + r / 64 % 64), byte (0x80 + r % 64)]

/-- Go function `utf8.EncodeRune`: the UTF-8 bytes of a rune; a surrogate or
a value above U+10FFFF is written as `RuneError`. -/
def EncodeRune (r : Nat) : List Byte :=
  if r ≤ 0x7F then [byte r]
  else if r ≤ 0x7FF then [byte (0xC0 + r / 64), byte (0x80 + r % 64)]
  else if r > 0x10FFFF ∨ (0xD800 ≤ r ∧ r ≤ 0xDFFF) then encode3 RuneError
  else if r ≤ 0xFFFF then encode3 r
  else [byte (0xF0 + r / 262144), byte (0x80 + r / 4096 % 64), byte (0x80 + r / 64 % 64),
        byte (0x80 + r % 64)]

/-- Go function `utf8.Valid` (`ValidString`), reading with at most `fuel`
steps: every rune decodes without error. -/
def validUTF8Aux : Nat → List Byte → Bool
  | 0, s => decide (s = [])
  | _, [] => true
  | fuel + 1, b :: rest =>
    let rs := DecodeRune (b :: rest)
    if rs.1 = RuneError ∧ rs.2 = 1 then false
    else validUTF8Aux fuel (rest.drop (rs.2 - 1))

/-- Go function `utf8.ValidString`. -/
def validUTF8 (s : GoString) : Bool := validUTF8Aux s.length s

/-- What Go's `encoding/json` makes of a string ("coerced to valid UTF-8"):
every byte that does not start a valid encoding is replaced by U+FFFD. -/
def toValidUTF8Aux : Nat → List Byte → List Byte
  | 0, _ => []
  | _, [] => []
  | fuel + 1, b :: rest =>
    let rs := DecodeRune (b :: rest)
    if rs.1 = RuneError ∧ rs.2 = 1 then encode3 RuneError ++ toValidUTF8Aux fuel rest
    else (b :: rest).take rs.2 ++ toValidUTF8Aux fuel (rest.drop (rs.2 - 1))

/-- The string coerced to valid UTF-8. -/
def toValidUTF8 (s : GoString) : GoString := toValidUTF8Aux s.length s

/-! ## Package `encoding/json`: `Marshal` -/

/-- Go table `htmlSafeSet`: the ASCII bytes `json.Marshal` writes as they
are: `0x20..0x7F` without the double quote, `&`, `<`, `>` and the backslash. -/
def htmlSafe (b : Byte) : Bool :=
  decide (0x20 ≤ b.val ∧ b.val < 0x80 ∧ b.val ≠ 0x22 ∧ b.val ≠ 0x26 ∧ b.val ≠ 0x3C
    ∧ b.val ≠ 0x3E ∧ b.val ≠ 0x5C)

/-- The escape sequence `json.Marshal` writes for an ASCII byte outside
`htmlSafeSet`.  (Go 1.22 and later write the two-character escapes `\b` and
`\f` for the bytes 8 and 12 where this writes `\u0008` and `\u000c`; the
decoder reads both forms as the same byte, see `unquoteAux_short_escapes`.) -/
def escapeByte (b : Byte) : List Byte :=
  if b.val = 0x5C ∨ b.val = 0x22 then [byte 0x5C, b]
  else if b.val = 0x0A then [byte 0x5C, byte 0x6E]
  else if b.val = 0x0D then [byte 0x5C, byte 0x72]
  else if b.val = 0x09 then [byte 0x5C, byte 0x74]
  else [byte 0x5C, byte 0x75, byte 0x30, byte 0x30, hexDigit (b.val / 16), hexDigit (b.val % 16)]

/-- The loop of Go's `encodeState.string` with `escapeHTML` set, reading with
at most `fuel` steps: the text between the quotes of the JSON string. -/
def jsonEscape : Nat → List Byte → List Byte
  | 0, _ => []
  | _, [] => []
  | fuel + 1, b :: rest =>
    if b.val < 0x80 then
      (if htmlSafe b then [b] else escapeByte b) ++ jsonEscape fuel rest
    else
      let rs := DecodeRune (b :: rest)
      if rs.1 = RuneError ∧ rs.2 = 1 then
        [byte 0x5C, byte 0x75, byte 0x66, byte 0x66, byte 0x66, byte 0x64]
          ++ jsonEscape fuel rest
      else if rs.1 = 0x2028 ∨ rs.1 = 0x2029 then
        [byte 0x5C, byte 0x75, byte 0x32, byte 0x30, byte 0x32, hexDigit (rs.1 % 16)]
          ++ jsonEscape fuel (rest.drop (rs.2 - 1))
      else
        (b :: rest).take rs.2 ++ jsonEscape fuel (rest.drop (rs.2 - 1))

/-- Go's `encodeState.string`: a string as a JSON string literal. -/
def jsonString (s : GoString) : List Byte :=
  byte 0x22 :: (jsonEscape s.length s ++ [byte 0x22])

/-- The decimal digits of `n` in front of `acc`, with at most `fuel` digits. -/
def decimalAux : Nat → Nat → List Byte → List Byte
  | 0, _, acc => acc
  | fuel + 1, n, acc =>
    if n < 10 then byte (48 + n) :: acc
    else decimalAux fuel (n / 10) (byte (48 + n % 10) :: acc)

/-- Go function `strconv.AppendInt(_, v, 10)`. -/
def formatInt (v : Int) : List Byte :=
  if v < 0 then byte 0x2D :: decimalAux (v.natAbs + 1) v.natAbs []
  else decimalAux (v.natAbs + 1) v.natAbs []

/-- The JSON values that occur in a token: strings and `int64` numbers. -/
inductive JValue where
  | str (s : GoString)
  | int (v : Int)
  deriving DecidableEq, Repr

/-- The members of a JSON object, in the order they are written. -/
abbrev JObject := List (GoString × JValue)

/-- The JSON text of a value. -/
def marshalValue : JValue → List Byte
  | .str s => jsonString s
  | .int v => formatInt v

/-- The members of an object after the first one is written: each member is
preceded by `sep`, the opening brace for the first member and a comma for
the others. -/
def marshalMembers (sep : Byte) : JObject → List Byte
  | [] => []
  | (k, v) :: ms =>
    sep :: (jsonString k ++ byte 0x3A :: marshalValue v) ++ marshalMembers (byte 0x2C) ms

/-- The JSON text of an object, as Go's struct and map encoders write it. -/
def marshalObject (ms : JObject) : List Byte :=
  match ms with
  | [] => [byte 0x7B, byte 0x7D]
  | _ => marshalMembers (byte 0x7B) ms ++ [byte 0x7D]

/-! ## Package `github.com/dgrijalva/jwt-go`: claims and signing -/

/-- Go struct `jwt.StandardClaims`, in the order of its fields. -/
structure StandardClaims where
  Audience : GoString
  ExpiresAt : Int
  Id : GoString
  IssuedAt : Int
  Issuer : GoString
  NotBefore : Int
  Subject : GoString
  deriving DecidableEq, Repr

/-- Go struct `OpenTokClaims`, local to `jwtToken`: the field `Ist` followed
by the embedded `jwt.StandardClaims`. -/
structure OpenTokClaims where
  Ist : issueType
  toStandardClaims : StandardClaims
  deriving DecidableEq, Repr

/-- A string field tagged `omitempty`: left out when empty. -/
def strField (name : String) (s : GoString) : JObject :=
  if s = [] then [] else [(ascii name, .str s)]

/-- An `int64` field tagged `omitempty`: left out when zero. -/
def intField (name : String) (v : Int) : JObject :=
  if v = 0 then [] else [(ascii name, .int v)]

/-- The members `json.Marshal` writes for an `OpenTokClaims`: the fields in
the order of declaration, the embedded struct's fields after `Ist`, under the
names of their `json` tags, every one of them `omitempty`. -/
def claimsMembers (c : OpenTokClaims) : JObject :=
  strField "ist" c.Ist ++
  strField "aud" c.toStandardClaims.Audience ++
  intField "exp" c.toStandardClaims.ExpiresAt ++
  strField "jti" c.toStandardClaims.Id ++
  intField "iat" c.toStandardClaims.IssuedAt ++
  strField "iss" c.toStandardClaims.Issuer ++
  intField "nbf" c.toStandardClaims.NotBefore ++
  strField "sub" c.toStandardClaims.Subject

/-- Go `json.Marshal` of an `OpenTokClaims`. -/
def marshalClaims (c : OpenTokClaims) : List Byte := marshalObject (claimsMembers c)

/-- Go method `SigningMethodHMAC.Alg` of `jwt.SigningMethodHS256`. -/
def algHS256 : GoString := ascii "HS256"

/-- Go struct `jwt.Token`, as `jwt.NewWithClaims` fills it; the header is a
map, whose keys `json.Marshal` writes in sorted order. -/
structure Token where
  Header : JObject
  Claims : OpenTokClaims
  deriving DecidableEq, Repr

/-- Go function `jwt.NewWithClaims` with `jwt.SigningMethodHS256`: the header
`typ: JWT, alg: HS256`. -/
def NewWithClaims (claims : OpenTokClaims) : Token :=
  { Header := [(ascii "alg", .str algHS256), (ascii "typ", .str (ascii "JWT"))],
    Claims := claims }

/-- Go method `Token.SigningString`: the encoded header and the encoded
claims, joined by a dot. -/
def Token.SigningString (t : Token) : GoString :=
  EncodeSegment (marshalObject t.Header) ++ byte 0x2E :: EncodeSegment (marshalClaims t.Claims)

/-- The dynamic type of the `key interface{}` argument of jwt-go. -/
inductive SigningKey where
  | bytes (k : List Byte)
  | other
  deriving DecidableEq, Repr

/-- Go method `SigningMethodHMAC.Sign`: the encoded HMAC-SHA256 tag of the
signing string, or `ErrInvalidKeyType` for a key that is not a `[]byte`.
The hash is available (`crypto/sha256` is linked in through `net/http`), so
the `ErrHashUnavailable` exit is never taken. -/
def Sign (signingString : GoString) (key : SigningKey) : GoString × GoError :=
  match key with
  | .bytes k => (EncodeSegment (hmacSHA256 k signingString), none)
  | .other => ([], some (ascii "key is of invalid type"))

/-- Go method `Token.SignedString`. -/
def Token.SignedString (t : Token) (key : SigningKey) : GoString × GoError :=
  let sstr := t.SigningString
  match Sign sstr key with
  | (sig, none) => (sstr ++ byte 0x2E :: sig, none)
  | (_, some err) => ([], some err)

/-- Go method `SigningMethodHMAC.Verify`: `none` (nil) when the signature
segment decodes to the HMAC-SHA256 tag of the signing string under the key. -/
def Verify (signingString signature : GoString) (key : SigningKey) : GoError :=
  match key with
  | .other => some (ascii "key is of invalid type")
  | .bytes k =>
    match DecodeSegment signature with
    | none => some (ascii "illegal base64 data")
    | some sig =>
      if sig = hmacSHA256 k signingString then none
      else some (ascii "signature is invalid")

/-! ## `jwtToken` (`opentok.go`, lines 63-88) -/

/-- The claims `jwtToken` assembles from the instance, the issue type, the
clock reading `now` and the 16 bytes `rnd` that `uuid.New` reads from the
random source. -/
def jwtClaims (ot : OpenTok) (ist : issueType) (now : Clock) (rnd : Fin 16 → Byte) :
    OpenTokClaims :=
  let issuedAt := (Now now).UTC
  { Ist := ist,
    toStandardClaims :=
      { Audience := [],
        ExpiresAt := (issuedAt.Add (5 * Minute)).Unix,
        Id := (uuidNew rnd).String,
        IssuedAt := issuedAt.Unix,
        Issuer := ot.apiKey,
        NotBefore := 0,
        Subject := [] } }

/-- Go method `(*OpenTok).jwtToken`: the instance after the call (the method
assigns to none of its fields), the token and the error. -/
def jwtToken (ot : OpenTok) (ist : issueType) (now : Clock) (rnd : Fin 16 → Byte) :
    OpenTok × GoString × GoError :=
  let claims := jwtClaims ot ist now rnd
  let token := NewWithClaims claims
  (ot, token.SignedString (.bytes ot.apiSecret))

/-! ## Reading a token back: jwt-go's parser and `encoding/json`'s decoder

The decoder reads the JSON texts a token payload can be: one object, written
without white space, whose members are strings and integers. -/

/-- Go function `strings.Split` for a separator of one byte. -/
def splitOn (sep : Byte) : GoString → List GoString
  | [] => [[]]
  | b :: rest =>
    if b = sep then [] :: splitOn sep rest
    else
      match splitOn sep rest with
      | [] => [[b]]
      | p :: ps => (b :: p) :: ps

/-- The value of a hexadecimal digit. -/
def hexVal (c : Byte) : Option Nat :=
  if 48 ≤ c.val ∧ c.val ≤ 57 then some (c.val - 48)
  else if 97 ≤ c.val ∧ c.val ≤ 102 then some (c.val - 87)
  else if 65 ≤ c.val ∧ c.val ≤ 70 then some (c.val - 55)
  else none

/-- Four hexadecimal digits and the text after them. -/
def readHex4 : List Byte → Option (Nat × List Byte)
  | a :: b :: c :: d :: rest =>
    match hexVal a, hexVal b, hexVal c, hexVal d with
    | some x, some y, some z, some w => some (x * 4096 + y * 256 + z * 16 + w, rest)
    | _, _, _, _ => none
  | _ => none

/-- Go function `getu4`: the rune of a `\uXXXX` escape at the head of the
text. -/
def getu4 : List Byte → Option (Nat × List Byte)
  | bs :: u :: rest => if bs.val = 0x5C ∧ u.val = 0x75 then readHex4 rest else none
  | _ => none

/-- The byte a one-letter escape stands for. -/
def unescape (e : Byte) : Option Byte :=
  if e.val = 0x22 ∨ e.val = 0x5C ∨ e.val = 0x2F then some e
  else if e.val = 0x62 then some (byte 0x08)
  else if e.val = 0x66 then some (byte 0x0C)
  else if e.val = 0x6E then some (byte 0x0A)
  else if e.val = 0x72 then some (byte 0x0D)
  else if e.val = 0x74 then some (byte 0x09)
  else none

/-- The bytes `p` in front of a decoded string. -/
def prepend (p : List Byte) (r : Option (GoString × List Byte)) : Option (GoString × List Byte) :=
  r.map (fun x => (p ++ x.1, x.2))

/-- Go function `unquote` of `encoding/json`, on the text after the opening
quote, reading with at most `fuel` steps: the string and the text after the
closing quote.  Escapes are resolved, a surrogate pair of `\u` escapes is
joined, a lone surrogate and an invalid UTF-8 byte become U+FFFD; a control
character or an unknown escape is an error. -/
def unquoteAux : Nat → List Byte → Option (GoString × List Byte)
  | 0, _ => none
  | _, [] => none
  | fuel + 1, b :: rest =>
    if b.val = 0x22 then some ([], rest)
    else if b.val = 0x5C then
      match rest with
      | [] => none
      | e :: rest1 =>
        if e.val = 0x75 then
          match readHex4 rest1 with
          | none => none
          | some (rr, rest2) =>
            if 0xD800 ≤ rr ∧ rr < 0xE000 then
              match getu4 rest2 with
              | some (rr1, rest3) =>
                if rr < 0xDC00 ∧ 0xDC00 ≤ rr1 ∧ rr1 < 0xE000 then
                  prepend (EncodeRune ((rr - 0xD800) * 1024 + (rr1 - 0xDC00) + 0x10000))
                    (unquoteAux fuel rest3)
                else prepend (EncodeRune RuneError) (unquoteAux fuel rest2)
              | none => prepend (EncodeRune RuneError) (unquoteAux fuel rest2)
            else prepend (EncodeRune rr) (unquoteAux fuel rest2)
        else
          match unescape e with
          | none => none
          | some c => prepend [c] (unquoteAux fuel rest1)
    else if b.val < 0x20 then none
    else if b.val < 0x80 then prepend [b] (unquoteAux fuel rest)
    else
      let rs := DecodeRune (b :: rest)
      prepend (EncodeRune rs.1) (unquoteAux fuel (rest.drop (rs.2 - 1)))

/-- The decimal digits at the head of the text, and the text after them. -/
def readDigits : List Byte → List Byte × List Byte
  | [] => ([], [])
  | b :: rest =>
    if 48 ≤ b.val ∧ b.val ≤ 57 then ((b :: (readDigits rest).1), (readDigits rest).2)
    else ([], b :: rest)

/-- The number a sequence of decimal digits stands for. -/
def digitsValue (ds : List Byte) : Nat :=
  ds.foldl (fun acc d => acc * 10 + (d.val - 48)) 0

/-- The digits of a JSON number read into an `int64`: no leading zero, no
fraction or exponent, and a value the type holds. -/
def parseDigits (neg : Bool) (s : List Byte) : Option (Int × List Byte) :=
  let ds := (readDigits s).1
  let rest := (readDigits s).2
  let v : Int := if neg then -(digitsValue ds : Int) else (digitsValue ds : Int)
  if ds = [] then none
  else if 1 < ds.length ∧ ds.head? = some (byte 48) then none
  else if rest.head? = some (byte 0x2E) ∨ rest.head? = some (byte 0x65)
      ∨ rest.head? = some (byte 0x45) then none
  else if -(2 ^ 63) ≤ v ∧ v ≤ 2 ^ 63 - 1 then some (v, rest)
  else none

/-- A JSON number read into an `int64`, and the text after it. -/
def parseInt : List Byte → Option (Int × List Byte)
  | [] => none
  | b :: rest => if b.val = 0x2D then parseDigits true rest else parseDigits false (b :: rest)

/-- A JSON value, string or integer, and the text after it. -/
def parseValue : List Byte → Option (JValue × List Byte)
  | [] => none
  | b :: rest =>
    if b.val = 0x22 then (unquoteAux (rest.length + 1) rest).map (fun x => (JValue.str x.1, x.2))
    else (parseInt (b :: rest)).map (fun x => (JValue.int x.1, x.2))

/-- The members of an object up to the closing brace, reading at most `fuel`
members, and the text after the brace. -/
def parseMembers : Nat → List Byte → Option (JObject × List Byte)
  | 0, _ => none
  | _, [] => none
  | fuel + 1, q :: s1 =>
    if q.val ≠ 0x22 then none
    else
      match unquoteAux (s1.length + 1) s1 with
      | none => none
      | some (_, []) => none
      | some (k, c :: s3) =>
        if c.val ≠ 0x3A then none
        else
          match parseValue s3 with
          | none => none
          | some (_, []) => none
          | some (v, d :: s5) =>
            if d.val = 0x7D then some ([(k, v)], s5)
            else if d.val = 0x2C then
              (parseMembers fuel s5).map (fun x => ((k, v) :: x.1, x.2))
            else none

/-- A JSON object: `none` for a text that is not one object of the kind
described above. -/
def parseObject : List Byte → Option JObject
  | [] => none
  | [_] => none
  | o :: c :: rest =>
    if o.val ≠ 0x7B then none
    else if c.val = 0x7D then (if rest = [] then some [] else none)
    else
      match parseMembers (rest.length + 1) (c :: rest) with
      | some (ms, []) => some ms
      | _ => none

/-- The claims with one member of the payload stored in the field whose
`json` tag is the member's name; a member of another name is skipped, a
value of the wrong kind is an error. -/
def setField (c : OpenTokClaims) (m : GoString × JValue) : Option OpenTokClaims :=
  let sc := c.toStandardClaims
  if m.1 = ascii "ist" then
    match m.2 with
    | .str s => some { c with Ist := s }
    | .int _ => none
  else if m.1 = ascii "aud" then
    match m.2 with
    | .str s => some { c with toStandardClaims := { sc with Audience := s } }
    | .int _ => none
  else if m.1 = ascii "exp" then
    match m.2 with
    | .int v => some { c with toStandardClaims := { sc with ExpiresAt := v } }
    | .str _ => none
  else if m.1 = ascii "jti" then
    match m.2 with
    | .str s => some { c with toStandardClaims := { sc with Id := s } }
    | .int _ => none
  else if m.1 = ascii "iat" then
    match m.2 with
    | .int v => some { c with toStandardClaims := { sc with IssuedAt := v } }
    | .str _ => none
  else if m.1 = ascii "iss" then
    match m.2 with
    | .str s => some { c with toStandardClaims := { sc with Issuer := s } }
    | .int _ => none
  else if m.1 = ascii "nbf" then
    match m.2 with
    | .int v => some { c with toStandardClaims := { sc with NotBefore := v } }
    | .str _ => none
  else if m.1 = ascii "sub" then
    match m.2 with
    | .str s => some { c with toStandardClaims := { sc with Subject := s } }
    | .int _ => none
  else some c

/-- The zero value of `OpenTokClaims`. -/
def zeroClaims : OpenTokClaims :=
  { Ist := [],
    toStandardClaims :=
      { Audience := [], ExpiresAt := 0, Id := [], IssuedAt := 0, Issuer := [],
        NotBefore := 0, Subject := [] } }

/-- The members stored one after the other. -/
def setFields (c : OpenTokClaims) : JObject → Option OpenTokClaims
  | [] => some c
  | m :: ms => (setField c m).bind (fun c1 => setFields c1 ms)

/-- Go `json.Unmarshal` of a payload into a zero `OpenTokClaims`: a field
whose member is absent keeps its zero value. -/
def unmarshalClaims (data : List Byte) : Option OpenTokClaims :=
  (parseObject data).bind (setFields zeroClaims)

/-- The members of the payload segment of a token, as jwt-go's parser reads
them: the token is split at its dots into three segments and the second is
base64url-decoded and JSON-decoded. -/
def payloadMembers (tok : GoString) : Option JObject :=
  match splitOn (byte 0x2E) tok with
  | [_, p, _] => (DecodeSegment p).bind parseObject
  | _ => none

/-- The claims in the payload segment of a token. -/
def decodeClaims (tok : GoString) : Option OpenTokClaims :=
  (payloadMembers tok).bind (setFields zeroClaims)

/-- The members of the header segment of a token. -/
def headerMembers (tok : GoString) : Option JObject :=
  match splitOn (byte 0x2E) tok with
  | [h, _, _] => (DecodeSegment h).bind parseObject
  | _ => none

/-- The signature check of jwt-go's `Parser.Parse` with a `[]byte` key: the
third segment is verified against the first two joined by a dot. -/
def verifyToken (tok : GoString) (key : List Byte) : GoError :=
  match splitOn (byte 0x2E) tok with
  | [h, p, s] => Verify (h ++ byte 0x2E :: p) s (.bytes key)
  | _ => some (ascii "token contains an invalid number of segments")

/-! ## Sequences of calls on one instance -/

/-- A call of one of the three methods of `OpenTok`, with its arguments. -/
inductive Call where
  | setAPIHost (url : GoString)
  | setHttpClient (client : HttpDoer)
  | issueToken (ist : issueType) (now : Clock) (rnd : Fin 16 → Byte)

/-- The instance after a call. -/
def Call.run (ot : OpenTok) : Call → OpenTok
  | .setAPIHost url => (SetAPIHost ot url).1
  | .setHttpClient client => SetHttpClient ot client
  | .issueToken ist now rnd => (jwtToken ot ist now rnd).1

/-- The instance after a sequence of calls, the first call first. -/
def runCalls (ot : OpenTok) (calls : List Call) : OpenTok :=
  calls.foldl Call.run ot

/-- The invariant of an instance made by `New k s`. -/
def Inv (k s : GoString) (ot : OpenTok) : Prop :=
  ot.apiHost ≠ [] ∧ ot.httpClient ≠ none ∧ ot.apiKey = k ∧ ot.apiSecret = s

/-- The clock readings on which Go's `time` package computes without `int64`
overflow: the Unix second is an `int64`, five minutes later is still a second
that `Time.ext` (seconds since year 1) can hold, and the nanoseconds are
below one second. -/
def Clock.inRange (c : Clock) : Prop :=
  -(2 ^ 63) ≤ c.sec ∧ c.sec + unixToInternal + 300 ≤ 2 ^ 63 - 1 ∧ c.nsec < 1000000000

/-- A value as it is read back from its JSON text: a string comes back
coerced to valid UTF-8, a number as it is. -/
def JValue.coerce : JValue → JValue
  | .str s => .str (toValidUTF8 s)
  | .int v => .int v

/-- The members of an object as they are read back from its JSON text. -/
def coerceMembers (ms : JObject) : JObject :=
  ms.map (fun m => (toValidUTF8 m.1, m.2.coerce))

/-- The number of a value is one an `int64` holds. -/
def JValue.isInt64 : JValue → Prop
  | .str _ => True
  | .int v => -(2 ^ 63) ≤ v ∧ v ≤ 2 ^ 63 - 1

/-- The claims as they are read back from their JSON text: the string fields
coerced to valid UTF-8. -/
def OpenTokClaims.coerce (c : OpenTokClaims) : OpenTokClaims :=
  { Ist := toValidUTF8 c.Ist,
    toStandardClaims :=
      { Audience := toValidUTF8 c.toStandardClaims.Audience,
        ExpiresAt := c.toStandardClaims.ExpiresAt,
        Id := toValidUTF8 c.toStandardClaims.Id,
        IssuedAt := c.toStandardClaims.IssuedAt,
        Issuer := toValidUTF8 c.toStandardClaims.Issuer,
        NotBefore := c.toStandardClaims.NotBefore,
        Subject := toValidUTF8 c.toStandardClaims.Subject } }

/-! ## Inputs used in examples -/

/-- The clock reading 2023-11-14 22:13:20 UTC. -/
def exampleClock : Clock := { sec := 1700000000, nsec := 0, mono := 0 }

/-- Sixteen bytes from the random source: `00 11 22 ... ff`. -/
def exampleRandom : Fin 16 → Byte := fun i => byte (17 * i.val)

/-- The instance `New("k1", "s1")`. -/
def exampleInstance : OpenTok := New (ascii "k1") (ascii "s1")

/-! ## Theorems: the configuration object -/

theorem ascii_ne_nil_of_ne_empty (s : String) (h : s.toList ≠ []) : ascii s ≠ [] := by
  unfold ascii
  intro hs
  exact h (List.map_eq_nil_iff.mp hs)

theorem defaultAPIHost_ne_nil : defaultAPIHost ≠ [] := by
  unfold defaultAPIHost
  exact ascii_ne_nil_of_ne_empty _ (by decide)

theorem SetAPIHost_nil (ot : OpenTok) :
    SetAPIHost ot [] = (ot, some (ascii "OpenTok API Host cannot be empty")) := by
  simp [SetAPIHost]

theorem SetAPIHost_ne_nil (ot : OpenTok) (url : GoString) (h : url ≠ []) :
    SetAPIHost ot url = ({ ot with apiHost := url }, none) := by
  simp [SetAPIHost, h]

theorem jwtToken_instance (ot : OpenTok) (ist : issueType) (now : Clock) (rnd : Fin 16 → Byte) :
    (jwtToken ot ist now rnd).1 = ot := rfl

theorem Inv_New (k s : GoString) : Inv k s (New k s) :=
  ⟨defaultAPIHost_ne_nil, by simp [New, DefaultClient], rfl, rfl⟩

theorem Inv_run (k s : GoString) (ot : OpenTok) (c : Call) (h : Inv k s ot) :
    Inv k s (c.run ot) := by
  obtain ⟨h1, h2, h3, h4⟩ := h
  cases c with
  | setAPIHost url =>
    by_cases hu : url = []
    · subst hu
      simp only [Call.run, SetAPIHost_nil]
      exact ⟨h1, h2, h3, h4⟩
    · simp only [Call.run, SetAPIHost_ne_nil ot url hu]
      exact ⟨hu, h2, h3, h4⟩
  | setHttpClient client =>
    cases client with
    | none => simpa [Call.run, SetHttpClient] using ⟨h1, h2, h3, h4⟩
    | some c => exact ⟨h1, by simp [Call.run, SetHttpClient], h3, h4⟩
  | issueToken ist now rnd =>
    simp only [Call.run, jwtToken_instance]
    exact ⟨h1, h2, h3, h4⟩

theorem Inv_runCalls (k s : GoString) (calls : List Call) (ot : OpenTok) (h : Inv k s ot) :
    Inv k s (runCalls ot calls) := by
  induction calls generalizing ot with
  | nil => exact h
  | cons c cs ih => exact ih (c.run ot) (Inv_run k s ot c h)

/-- C1: `SetAPIHost(url)` returns a non-nil error exactly when `url` is the
empty string, and when it returns an error the instance is the one before the
call: `apiHost`, `apiKey`, `apiSecret` and `httpClient` are all unchanged. -/
theorem SetAPIHost_error_iff_empty (ot : OpenTok) (url : GoString) :
    ((SetAPIHost ot url).2 ≠ none ↔ url = []) ∧
    ((SetAPIHost ot url).2 ≠ none → (SetAPIHost ot url).1 = ot) := by
  by_cases hu : url = []
  · subst hu
    simp [SetAPIHost_nil]
  · simp [SetAPIHost_ne_nil ot url hu, hu]

/-- C7: for a non-empty `url`, `SetAPIHost(url)` returns nil and afterwards
`apiHost` is `url`, while `apiKey`, `apiSecret` and `httpClient` are as
before the call. -/
theorem SetAPIHost_nonempty_sets_host (ot : OpenTok) (url : GoString) (h : url ≠ []) :
    (SetAPIHost ot url).2 = none ∧
    (SetAPIHost ot url).1.apiHost = url ∧
    (SetAPIHost ot url).1.apiKey = ot.apiKey ∧
    (SetAPIHost ot url).1.apiSecret = ot.apiSecret ∧
    (SetAPIHost ot url).1.httpClient = ot.httpClient := by
  simp [SetAPIHost_ne_nil ot url h]

/-- Witness of C7 at `New "k1" "s1"` and the host `https://example.com`. -/
theorem SetAPIHost_nonempty_sets_host_witness :
    ascii "https://example.com" ≠ [] ∧
    (SetAPIHost (New (ascii "k1") (ascii "s1")) (ascii "https://example.com")).2 = none ∧
    (SetAPIHost (New (ascii "k1") (ascii "s1")) (ascii "https://example.com")).1.apiHost
      = ascii "https://example.com" :=
  have h : ascii "https://example.com" ≠ [] := ascii_ne_nil_of_ne_empty _ (by decide)
  ⟨h, (SetAPIHost_nonempty_sets_host _ _ h).1, (SetAPIHost_nonempty_sets_host _ _ h).2.1⟩

/-- C8: `SetHttpClient(nil)` keeps the prior `httpClient`, `SetHttpClient(c)`
for a non-nil `c` makes `httpClient` equal to `c`, and in both cases `apiKey`,
`apiSecret` and `apiHost` are unchanged. -/
theorem SetHttpClient_spec (ot : OpenTok) (client : HttpDoer) :
    (client = none → (SetHttpClient ot client).httpClient = ot.httpClient) ∧
    (client ≠ none → (SetHttpClient ot client).httpClient = client) ∧
    (SetHttpClient ot client).apiKey = ot.apiKey ∧
    (SetHttpClient ot client).apiSecret = ot.apiSecret ∧
    (SetHttpClient ot client).apiHost = ot.apiHost := by
  cases client with
  | none => simp [SetHttpClient]
  | some c => simp [SetHttpClient]

/-- C9: `New(apiKey, apiSecret)` returns an instance whose `apiKey` and
`apiSecret` are the given arguments, in that order, whose `apiHost` is the
constant `https://api.opentok.com` and whose `httpClient` is the default
HTTP client. -/
theorem New_spec (apiKey apiSecret : GoString) :
    (New apiKey apiSecret).apiKey = apiKey ∧
    (New apiKey apiSecret).apiSecret = apiSecret ∧
    (New apiKey apiSecret).apiHost = ascii "https://api.opentok.com" ∧
    (New apiKey apiSecret).httpClient = DefaultClient :=
  ⟨rfl, rfl, rfl, rfl⟩

/-- C10: in every state reached from `New(k, s)` by a finite sequence of
`SetAPIHost`, `SetHttpClient` and `jwtToken` calls with arbitrary arguments,
`apiHost` is non-empty, `httpClient` is non-nil, `apiKey` is `k` and
`apiSecret` is `s`. -/
theorem reachable_invariant (k s : GoString) (calls : List Call) :
    (runCalls (New k s) calls).apiHost ≠ [] ∧
    (runCalls (New k s) calls).httpClient ≠ none ∧
    (runCalls (New k s) calls).apiKey = k ∧
    (runCalls (New k s) calls).apiSecret = s :=
  Inv_runCalls k s calls (New k s) (Inv_New k s)

/-! ## Known answers

The model of the library functions evaluated on published test vectors and on
one token whose text was computed independently. -/

/-- SHA-256 of `abc` (FIPS 180-4, appendix B.1). -/
theorem sha256_abc :
    sha256 (ascii "abc") =
      [byte 0xba, byte 0x78, byte 0x16, byte 0xbf, byte 0x8f, byte 0x01, byte 0xcf, byte 0xea,
      byte 0x41, byte 0x41, byte 0x40, byte 0xde, byte 0x5d, byte 0xae, byte 0x22, byte 0x23,
      byte 0xb0, byte 0x03, byte 0x61, byte 0xa3, byte 0x96, byte 0x17, byte 0x7a, byte 0x9c,
      byte 0xb4, byte 0x10, byte 0xff, byte 0x61, byte 0xf2, byte 0x00, byte 0x15, byte 0xad] := by
  decide!

/-- HMAC-SHA256 test case 2 of RFC 4231. -/
theorem hmacSHA256_rfc4231_case2 :
    hmacSHA256 (ascii "Jefe") (ascii "what do ya want for nothing?") =
      [byte 0x5b, byte 0xdc, byte 0xc1, byte 0x46, byte 0xbf, byte 0x60, byte 0x75, byte 0x4e,
      byte 0x6a, byte 0x04, byte 0x24, byte 0x26, byte 0x08, byte 0x95, byte 0x75, byte 0xc7,
      byte 0x5a, byte 0x00, byte 0x3f, byte 0x08, byte 0x9d, byte 0x27, byte 0x39, byte 0x83,
      byte 0x9d, byte 0xec, byte 0x58, byte 0xb9, byte 0x64, byte 0xec, byte 0x38, byte 0x43] := by
  decide!

/-- The text `json.Marshal` writes for a string with HTML characters, a
quote, a line feed and a byte that is not valid UTF-8. -/
theorem jsonString_escapes :
    jsonString (ascii "a<b>&\"\n" ++ [byte 0xFF]) =
      ascii "\"a\\u003cb\\u003e\\u0026\\\"\\n\\ufffd\"" := by
  decide!

/-- The payload of the token of `New("k1", "s1")` for the issue type
`project`, the clock reading 1700000000 and the identifier
`00112233-4455-4677-8899-aabbccddeeff`. -/
theorem marshalClaims_example :
    marshalClaims (jwtClaims exampleInstance projectToken exampleClock exampleRandom) =
      ascii ("\x7b\"ist\":\"project\",\"exp\":1700000300," ++
        "\"jti\":\"00112233-4455-4677-8899-aabbccddeeff\"," ++
        "\"iat\":1700000000,\"iss\":\"k1\"\x7d") := by
  decide!

/-- The whole token for these inputs. -/
theorem jwtToken_example :
    (jwtToken exampleInstance projectToken exampleClock exampleRandom).2 =
      (ascii ("eyJhbGciOiJIUzI1NiIsInR5cCI6IkpXVCJ9." ++
        "eyJpc3QiOiJwcm9qZWN0IiwiZXhwIjoxNzAwMDAwMzAwLCJqdGkiOiIwMDExMjIzMy00ND" ++
        "U1LTQ2NzctODg5OS1hYWJiY2NkZGVlZmYiLCJpYXQiOjE3MDAwMDAwMDAsImlzcyI6ImsxIn0." ++
        "w76wtPB9xKC1ooAbEkWop514reb6tB8e4kM4AmyBV6A"), none) := by
  decide!

/-! ## Theorems: the clock -/

theorem wrapInt64_of_inRange (x : Int) (h1 : -(2 ^ 63) ≤ x) (h2 : x ≤ 2 ^ 63 - 1) :
    wrapInt64 x = x := by
  unfold wrapInt64
  omega

theorem wrapInt64_bounds (x : Int) : -(2 ^ 63) ≤ wrapInt64 x ∧ wrapInt64 x ≤ 2 ^ 63 - 1 := by
  unfold wrapInt64
  omega

theorem unixToInternal_eq : unixToInternal = 62135596800 := by decide

theorem wallToInternal_eq : wallToInternal = 59453308800 := by decide

/-- The time `time.Now().UTC()` of a reading in range: wall-only, with the
seconds since year 1 in `ext`. -/
theorem Now_UTC (c : Clock) (h : c.inRange) :
    (Now c).UTC =
      { hasMonotonic := false, wallSec := 0, nsec := c.nsec, ext := c.sec + unixToInternal } := by
  obtain ⟨h1, h2, _⟩ := h
  rw [unixToInternal_eq] at h2
  have hw : wrapInt64 (c.sec + (unixToInternal - minWall)) = c.sec + 2682288000 := by
    rw [wrapInt64_of_inRange] <;> simp only [unixToInternal_eq, minWall, wallToInternal_eq] <;> omega
  have hm : minWall = 59453308800 := wallToInternal_eq
  by_cases hs : toUint64 (c.sec + 2682288000) / 2 ^ 33 ≠ 0
  · have he : wrapInt64 (c.sec + 2682288000 + minWall) = c.sec + unixToInternal := by
      rw [wrapInt64_of_inRange] <;> simp only [unixToInternal_eq, hm] <;> omega
    simp only [Time.UTC, Now, hw, if_pos hs, Time.stripMono, Bool.false_eq_true, if_false, he]
  · have hb : 0 ≤ c.sec + 2682288000 ∧ c.sec + 2682288000 < 2 ^ 33 := by
      simp only [toUint64, ne_eq, not_not] at hs
      omega
    have he : wrapInt64 (wallToInternal + ((c.sec + 2682288000).toNat : Int))
        = c.sec + unixToInternal := by
      rw [wrapInt64_of_inRange] <;> simp only [unixToInternal_eq, wallToInternal_eq] <;> omega
    simp only [Time.UTC, Now, hw, if_neg hs, Time.stripMono, if_true, Time.sec, he]

theorem Unix_wall (n : Nat) (e : Int) (h1 : -(2 ^ 63) + 62135596800 ≤ e) (h2 : e ≤ 2 ^ 63 - 1) :
    Time.Unix { hasMonotonic := false, wallSec := 0, nsec := n, ext := e } = e - 62135596800 := by
  simp only [Time.Unix, Time.sec, Bool.false_eq_true, if_false, internalToUnix, unixToInternal_eq]
  rw [wrapInt64_of_inRange] <;> omega

theorem Add_wall (n : Nat) (e : Int) (hn : n < 1000000000) (h1 : -(2 ^ 63) ≤ e)
    (h2 : e + 300 ≤ 2 ^ 63 - 1) :
    Time.Add { hasMonotonic := false, wallSec := 0, nsec := n, ext := e } (5 * Minute) =
      { hasMonotonic := false, wallSec := 0, nsec := n, ext := e + 300 } := by
  have hd : Int.tdiv (5 * Minute) 1000000000 = 300 := by decide
  have hm : Int.tmod (5 * Minute) 1000000000 = 0 := by decide
  have hw : wrapInt64 (e + 300) = e + 300 := by rw [wrapInt64_of_inRange] <;> omega
  simp only [Time.Add, hd, hm, add_zero]
  have c1 : ¬ ((n : Int) ≥ 1000000000) := by omega
  have c2 : ¬ ((n : Int) < 0) := by omega
  simp only [c1, c2, if_false, Time.addSec, Bool.false_eq_true, hw, Int.toNat_ofNat]
  have c3 : decide (e + 300 > e) = decide ((300 : Int) > 0) := by
    simp only [decide_eq_decide]; omega
  simp only [c3, if_true, Bool.false_eq_true, if_false]

/-- The two timestamps of the claims for a reading in range. -/
theorem jwtClaims_times (ot : OpenTok) (ist : issueType) (now : Clock) (rnd : Fin 16 → Byte)
    (h : now.inRange) :
    (jwtClaims ot ist now rnd).toStandardClaims.IssuedAt = now.sec ∧
    (jwtClaims ot ist now rnd).toStandardClaims.ExpiresAt = now.sec + 300 := by
  have hu := Now_UTC now h
  obtain ⟨h1, h2, h3⟩ := h
  rw [unixToInternal_eq] at h2
  simp only [jwtClaims, hu, unixToInternal_eq]
  rw [Add_wall _ _ h3 (by omega) (by omega), Unix_wall _ _ (by omega) (by omega),
    Unix_wall _ _ (by omega) (by omega)]
  constructor <;> omega

/-! ## Theorems: bytes and base64url -/

theorem byte_val (n : Nat) : (byte n).val = n % 256 := rfl

theorem byte_of_val (b : Byte) : byte b.val = b := by
  apply Fin.ext
  rw [byte_val]
  exact Nat.mod_eq_of_lt b.isLt

theorem byte_eq_iff (n : Nat) (b : Byte) : byte n = b ↔ n % 256 = b.val := by
  rw [Fin.ext_iff, byte_val]

theorem b64Val_b64Char (v : Nat) (h : v < 64) : b64Val (b64Char v) = some v := by
  have key : ∀ w : Fin 64, b64Val (b64Char w.val) = some w.val := by decide
  exact key ⟨v, h⟩

theorem b64Char_ne_dot (v : Nat) : b64Char v ≠ byte 0x2E := by
  unfold b64Char
  intro h
  split at h
  · rw [Fin.ext_iff, byte_val, byte_val] at h; omega
  · split at h
    · rw [Fin.ext_iff, byte_val, byte_val] at h; omega
    · split at h
      · rw [Fin.ext_iff, byte_val, byte_val] at h; omega
      · split at h <;> (rw [Fin.ext_iff, byte_val, byte_val] at h; omega)

theorem EncodeSegment_no_dot (l : List Byte) : byte 0x2E ∉ EncodeSegment l := by
  induction l using EncodeSegment.induct with
  | case1 => simp [EncodeSegment]
  | case2 a =>
    simp only [EncodeSegment, List.mem_cons, List.mem_singleton, List.not_mem_nil, or_false, not_or]
    exact ⟨fun h => b64Char_ne_dot _ h.symm, fun h => b64Char_ne_dot _ h.symm⟩
  | case3 a b =>
    simp only [EncodeSegment, List.mem_cons, List.mem_singleton, List.not_mem_nil, or_false, not_or]
    exact ⟨fun h => b64Char_ne_dot _ h.symm, fun h => b64Char_ne_dot _ h.symm,
      fun h => b64Char_ne_dot _ h.symm⟩
  | case4 a b c rest ih =>
    simp only [EncodeSegment, List.mem_cons, not_or]
    exact ⟨fun h => b64Char_ne_dot _ h.symm, fun h => b64Char_ne_dot _ h.symm,
      fun h => b64Char_ne_dot _ h.symm, fun h => b64Char_ne_dot _ h.symm, ih⟩

theorem EncodeSegment_ne_nil (l : List Byte) (h : l ≠ []) : EncodeSegment l ≠ [] := by
  match l, h with
  | [_], _ => simp [EncodeSegment]
  | [_, _], _ => simp [EncodeSegment]
  | _ :: _ :: _ :: _, _ => simp [EncodeSegment]

/-- Decoding undoes encoding. -/
theorem DecodeSegment_EncodeSegment (l : List Byte) :
    DecodeSegment (EncodeSegment l) = some l := by
  induction l using EncodeSegment.induct with
  | case1 => rfl
  | case2 a =>
    have ha := a.isLt
    simp only [EncodeSegment, DecodeSegment]
    rw [b64Val_b64Char _ (by omega), b64Val_b64Char _ (by omega)]
    simp only [Option.some.injEq, List.cons.injEq, and_true]
    rw [byte_eq_iff]; omega
  | case3 a b =>
    have ha := a.isLt
    have hb := b.isLt
    simp only [EncodeSegment, DecodeSegment]
    rw [b64Val_b64Char _ (by omega), b64Val_b64Char _ (by omega), b64Val_b64Char _ (by omega)]
    simp only [Option.some.injEq, List.cons.injEq, and_true]
    constructor <;> (rw [byte_eq_iff]; omega)
  | case4 a b c rest ih =>
    have ha := a.isLt
    have hb := b.isLt
    have hc := c.isLt
    simp only [EncodeSegment, DecodeSegment]
    rw [b64Val_b64Char _ (by omega), b64Val_b64Char _ (by omega), b64Val_b64Char _ (by omega),
      b64Val_b64Char _ (by omega), ih]
    simp only [Option.some.injEq, List.cons.injEq, and_true]
    refine ⟨?_, ?_, ?_⟩ <;> (rw [byte_eq_iff]; omega)

theorem splitOn_no_sep (sep : Byte) (a : GoString) (h : sep ∉ a) : splitOn sep a = [a] := by
  induction a with
  | nil => rfl
  | cons b rest ih =>
    have hb : b ≠ sep := fun e => h (by simp [e])
    have hr : sep ∉ rest := fun e => h (by simp [e])
    simp only [splitOn, hb, if_false, ih hr]

theorem splitOn_append (sep : Byte) (a rest : GoString) (h : sep ∉ a) :
    splitOn sep (a ++ sep :: rest) = a :: splitOn sep rest := by
  induction a with
  | nil => simp [splitOn]
  | cons b tl ih =>
    have hb : b ≠ sep := fun e => h (by simp [e])
    have hr : sep ∉ tl := fun e => h (by simp [e])
    have e := ih hr
    rw [List.cons_append, splitOn, if_neg hb, e]

/-- A text of three dot-free segments splits into these segments. -/
theorem splitOn_three (sep : Byte) (a b c : GoString) (ha : sep ∉ a) (hb : sep ∉ b)
    (hc : sep ∉ c) : splitOn sep (a ++ sep :: (b ++ sep :: c)) = [a, b, c] := by
  rw [splitOn_append sep a _ ha, splitOn_append sep b _ hb, splitOn_no_sep sep c hc]

/-! ## Theorems: UTF-8 -/

theorem inRange_iff (lo hi : Nat) (b : Byte) : inRange lo hi b = true ↔ lo ≤ b.val ∧ b.val ≤ hi := by
  simp [inRange]

/-- The five ways `DecodeRune` can read the head of a non-empty text. -/
theorem DecodeRune_cases (b : Byte) (tl : List Byte) :
    (0x80 ≤ b.val ∧ DecodeRune (b :: tl) = (RuneError, 1)) ∨
    (b.val < 0x80 ∧ DecodeRune (b :: tl) = (b.val, 1)) ∨
    (∃ b1 t, tl = b1 :: t ∧ 0xC2 ≤ b.val ∧ b.val < 0xE0 ∧ 0x80 ≤ b1.val ∧ b1.val ≤ 0xBF ∧
      DecodeRune (b :: tl) = ((b.val - 0xC0) * 64 + (b1.val - 0x80), 2)) ∨
    (∃ b1 b2 t, tl = b1 :: b2 :: t ∧ 0xE0 ≤ b.val ∧ b.val < 0xF0 ∧
      (if b.val = 0xE0 then 0xA0 else 0x80) ≤ b1.val ∧
      b1.val ≤ (if b.val = 0xED then 0x9F else 0xBF) ∧ 0x80 ≤ b2.val ∧ b2.val ≤ 0xBF ∧
      DecodeRune (b :: tl) =
        ((b.val - 0xE0) * 4096 + (b1.val - 0x80) * 64 + (b2.val - 0x80), 3)) ∨
    (∃ b1 b2 b3 t, tl = b1 :: b2 :: b3 :: t ∧ 0xF0 ≤ b.val ∧ b.val < 0xF5 ∧
      (if b.val = 0xF0 then 0x90 else 0x80) ≤ b1.val ∧
      b1.val ≤ (if b.val = 0xF4 then 0x8F else 0xBF) ∧ 0x80 ≤ b2.val ∧ b2.val ≤ 0xBF ∧
      0x80 ≤ b3.val ∧ b3.val ≤ 0xBF ∧
      DecodeRune (b :: tl) =
        ((b.val - 0xF0) * 262144 + (b1.val - 0x80) * 4096 + (b2.val - 0x80) * 64
          + (b3.val - 0x80), 4)) := by
  by_cases h1 : b.val < 0x80
  · right; left
    exact ⟨h1, by simp only [DecodeRune, if_pos h1]⟩
  by_cases h2 : b.val < 0xC2
  · left
    exact ⟨by omega, by simp only [DecodeRune, if_neg h1, if_pos h2]⟩
  by_cases h3 : b.val < 0xE0
  · rcases tl with _ | ⟨b1, t⟩
    · left
      exact ⟨by omega, by simp only [DecodeRune, if_neg h1, if_neg h2, if_pos h3]⟩
    · by_cases hc : inRange 0x80 0xBF b1 = true
      · right; right; left
        have hc' := (inRange_iff _ _ _).mp hc
        exact ⟨b1, t, rfl, by omega, h3, hc'.1, hc'.2,
          by simp only [DecodeRune, if_neg h1, if_neg h2, if_pos h3, if_pos hc]⟩
      · left
        exact ⟨by omega, by simp only [DecodeRune, if_neg h1, if_neg h2, if_pos h3, if_neg hc]⟩
  by_cases h4 : b.val < 0xF0
  · rcases tl with _ | ⟨b1, _ | ⟨b2, t⟩⟩
    · left
      exact ⟨by omega, by simp only [DecodeRune, if_neg h1, if_neg h2, if_neg h3, if_pos h4]⟩
    · left
      exact ⟨by omega, by simp only [DecodeRune, if_neg h1, if_neg h2, if_neg h3, if_pos h4]⟩
    · by_cases hc : (inRange (if b.val = 0xE0 then 0xA0 else 0x80)
          (if b.val = 0xED then 0x9F else 0xBF) b1 = true ∧ inRange 0x80 0xBF b2 = true)
      · right; right; right; left
        have hc1 := (inRange_iff _ _ _).mp hc.1
        have hc2 := (inRange_iff _ _ _).mp hc.2
        exact ⟨b1, b2, t, rfl, by omega, h4, hc1.1, hc1.2, hc2.1, hc2.2,
          by simp only [DecodeRune, if_neg h1, if_neg h2, if_neg h3, if_pos h4, if_pos hc]⟩
      · left
        exact ⟨by omega,
          by simp only [DecodeRune, if_neg h1, if_neg h2, if_neg h3, if_pos h4, if_neg hc]⟩
  by_cases h5 : b.val < 0xF5
  · rcases tl with _ | ⟨b1, _ | ⟨b2, _ | ⟨b3, t⟩⟩⟩
    · left
      exact ⟨by omega,
        by simp only [DecodeRune, if_neg h1, if_neg h2, if_neg h3, if_neg h4, if_pos h5]⟩
    · left
      exact ⟨by omega,
        by simp only [DecodeRune, if_neg h1, if_neg h2, if_neg h3, if_neg h4, if_pos h5]⟩
    · left
      exact ⟨by omega,
        by simp only [DecodeRune, if_neg h1, if_neg h2, if_neg h3, if_neg h4, if_pos h5]⟩
    · by_cases hc : (inRange (if b.val = 0xF0 then 0x90 else 0x80)
          (if b.val = 0xF4 then 0x8F else 0xBF) b1 = true ∧ inRange 0x80 0xBF b2 = true
          ∧ inRange 0x80 0xBF b3 = true)
      · right; right; right; right
        have hc1 := (inRange_iff _ _ _).mp hc.1
        have hc2 := (inRange_iff _ _ _).mp hc.2.1
        have hc3 := (inRange_iff _ _ _).mp hc.2.2
        exact ⟨b1, b2, b3, t, rfl, by omega, h5, hc1.1, hc1.2, hc2.1, hc2.2, hc3.1, hc3.2,
          by simp only [DecodeRune, if_neg h1, if_neg h2, if_neg h3, if_neg h4, if_pos h5,
            if_pos hc]⟩
      · left
        exact ⟨by omega,
          by simp only [DecodeRune, if_neg h1, if_neg h2, if_neg h3, if_neg h4, if_pos h5,
            if_neg hc]⟩
  · left
    exact ⟨by omega,
      by simp only [DecodeRune, if_neg h1, if_neg h2, if_neg h3, if_neg h4, if_neg h5]⟩

theorem DecodeRune_two (b b1 : Byte) (t : List Byte) (h1 : 0xC2 ≤ b.val) (h2 : b.val < 0xE0)
    (h3 : 0x80 ≤ b1.val) (h4 : b1.val ≤ 0xBF) :
    DecodeRune (b :: b1 :: t) = ((b.val - 0xC0) * 64 + (b1.val - 0x80), 2) := by
  have c1 : ¬ b.val < 0x80 := by omega
  have c2 : ¬ b.val < 0xC2 := by omega
  have hc : inRange 0x80 0xBF b1 = true := (inRange_iff _ _ _).mpr ⟨h3, h4⟩
  simp only [DecodeRune, if_neg c1, if_neg c2, if_pos h2, if_pos hc]

theorem DecodeRune_three (b b1 b2 : Byte) (t : List Byte) (h1 : 0xE0 ≤ b.val)
    (h2 : b.val < 0xF0) (h3 : (if b.val = 0xE0 then 0xA0 else 0x80) ≤ b1.val)
    (h4 : b1.val ≤ (if b.val = 0xED then 0x9F else 0xBF)) (h5 : 0x80 ≤ b2.val)
    (h6 : b2.val ≤ 0xBF) :
    DecodeRune (b :: b1 :: b2 :: t) =
      ((b.val - 0xE0) * 4096 + (b1.val - 0x80) * 64 + (b2.val - 0x80), 3) := by
  have c1 : ¬ b.val < 0x80 := by omega
  have c2 : ¬ b.val < 0xC2 := by omega
  have c3 : ¬ b.val < 0xE0 := by omega
  have hc : (inRange (if b.val = 0xE0 then 0xA0 else 0x80)
      (if b.val = 0xED then 0x9F else 0xBF) b1 = true ∧ inRange 0x80 0xBF b2 = true) :=
    ⟨(inRange_iff _ _ _).mpr ⟨h3, h4⟩, (inRange_iff _ _ _).mpr ⟨h5, h6⟩⟩
  simp only [DecodeRune, if_neg c1, if_neg c2, if_neg c3, if_pos h2, if_pos hc]

theorem DecodeRune_four (b b1 b2 b3 : Byte) (t : List Byte) (h1 : 0xF0 ≤ b.val)
    (h2 : b.val < 0xF5) (h3 : (if b.val = 0xF0 then 0x90 else 0x80) ≤ b1.val)
    (h4 : b1.val ≤ (if b.val = 0xF4 then 0x8F else 0xBF)) (h5 : 0x80 ≤ b2.val)
    (h6 : b2.val ≤ 0xBF) (h7 : 0x80 ≤ b3.val) (h8 : b3.val ≤ 0xBF) :
    DecodeRune (b :: b1 :: b2 :: b3 :: t) =
      ((b.val - 0xF0) * 262144 + (b1.val - 0x80) * 4096 + (b2.val - 0x80) * 64
        + (b3.val - 0x80), 4) := by
  have c1 : ¬ b.val < 0x80 := by omega
  have c2 : ¬ b.val < 0xC2 := by omega
  have c3 : ¬ b.val < 0xE0 := by omega
  have c4 : ¬ b.val < 0xF0 := by omega
  have hc : (inRange (if b.val = 0xF0 then 0x90 else 0x80)
      (if b.val = 0xF4 then 0x8F else 0xBF) b1 = true ∧ inRange 0x80 0xBF b2 = true
      ∧ inRange 0x80 0xBF b3 = true) :=
    ⟨(inRange_iff _ _ _).mpr ⟨h3, h4⟩, (inRange_iff _ _ _).mpr ⟨h5, h6⟩,
      (inRange_iff _ _ _).mpr ⟨h7, h8⟩⟩
  simp only [DecodeRune, if_neg c1, if_neg c2, if_neg c3, if_neg c4, if_pos h2, if_pos hc]

theorem DecodeRune_three_take (b b1 b2 : Byte) (t t' : List Byte) (h1 : 0xE0 ≤ b.val)
    (h2 : b.val < 0xF0) (h3 : (if b.val = 0xE0 then 0xA0 else 0x80) ≤ b1.val)
    (h4 : b1.val ≤ (if b.val = 0xED then 0x9F else 0xBF)) (h5 : 0x80 ≤ b2.val)
    (h6 : b2.val ≤ 0xBF) :
    DecodeRune ((b :: b1 :: b2 :: t).take
        ((b.val - 0xE0) * 4096 + (b1.val - 0x80) * 64 + (b2.val - 0x80), 3).2 ++ t') =
      ((b.val - 0xE0) * 4096 + (b1.val - 0x80) * 64 + (b2.val - 0x80), 3) := by
  simp only [List.take_succ_cons, List.take_zero, List.cons_append, List.nil_append]
  exact DecodeRune_three b b1 b2 t' h1 h2 h3 h4 h5 h6

theorem DecodeRune_four_take (b b1 b2 b3 : Byte) (t t' : List Byte) (h1 : 0xF0 ≤ b.val)
    (h2 : b.val < 0xF5) (h3 : (if b.val = 0xF0 then 0x90 else 0x80) ≤ b1.val)
    (h4 : b1.val ≤ (if b.val = 0xF4 then 0x8F else 0xBF)) (h5 : 0x80 ≤ b2.val)
    (h6 : b2.val ≤ 0xBF) (h7 : 0x80 ≤ b3.val) (h8 : b3.val ≤ 0xBF) :
    DecodeRune ((b :: b1 :: b2 :: b3 :: t).take
        ((b.val - 0xF0) * 262144 + (b1.val - 0x80) * 4096 + (b2.val - 0x80) * 64
          + (b3.val - 0x80), 4).2 ++ t') =
      ((b.val - 0xF0) * 262144 + (b1.val - 0x80) * 4096 + (b2.val - 0x80) * 64
        + (b3.val - 0x80), 4) := by
  simp only [List.take_succ_cons, List.take_zero, List.cons_append, List.nil_append]
  exact DecodeRune_four b b1 b2 b3 t' h1 h2 h3 h4 h5 h6 h7 h8

/-- The width `DecodeRune` reports lies between 1 and the length of the
text. -/
theorem DecodeRune_width (b : Byte) (tl : List Byte) :
    1 ≤ (DecodeRune (b :: tl)).2 ∧ (DecodeRune (b :: tl)).2 ≤ (b :: tl).length := by
  rcases DecodeRune_cases b tl with ⟨_, h⟩ | ⟨_, h⟩ | ⟨b1, t, rfl, _, _, _, _, h⟩ |
    ⟨b1, b2, t, rfl, _, _, _, _, _, _, h⟩ | ⟨b1, b2, b3, t, rfl, _, _, _, _, _, _, _, _, h⟩ <;>
    rw [h] <;> simp only [List.length_cons] <;> omega

theorem EncodeRune_ascii (r : Nat) (h : r ≤ 0x7F) : EncodeRune r = [byte r] := by
  simp only [EncodeRune, if_pos h]

theorem EncodeRune_RuneError : EncodeRune RuneError = encode3 RuneError := by decide

/-- A rune that was decoded from a valid encoding of more than one byte is
encoded as the bytes it was read from, and these bytes decode to it whatever
follows them. -/
theorem DecodeRune_valid (b : Byte) (tl : List Byte) (hb : 0x80 ≤ b.val)
    (hv : ¬ ((DecodeRune (b :: tl)).1 = RuneError ∧ (DecodeRune (b :: tl)).2 = 1)) :
    EncodeRune (DecodeRune (b :: tl)).1 = (b :: tl).take (DecodeRune (b :: tl)).2 ∧
    (∀ t, DecodeRune ((b :: tl).take (DecodeRune (b :: tl)).2 ++ t) = DecodeRune (b :: tl)) ∧
    0x80 ≤ (DecodeRune (b :: tl)).1 := by
  rcases DecodeRune_cases b tl with ⟨_, h⟩ | ⟨h0, _⟩ | ⟨b1, t, rfl, h1, h2, h3, h4, h⟩ |
    ⟨b1, b2, t, rfl, h1, h2, h3, h4, h5, h6, h⟩ |
    ⟨b1, b2, b3, t, rfl, h1, h2, h3, h4, h5, h6, h7, h8, h⟩
  · exact absurd (by rw [h]; exact ⟨rfl, rfl⟩) hv
  · omega
  · have hb0 := b.isLt
    have hb1 := b1.isLt
    rw [h]
    refine ⟨?_, fun t' => ?_, by simp only; omega⟩
    · have e1 : ¬ ((b.val - 0xC0) * 64 + (b1.val - 0x80) ≤ 0x7F) := by omega
      have e2 : (b.val - 0xC0) * 64 + (b1.val - 0x80) ≤ 0x7FF := by omega
      simp only [EncodeRune, if_neg e1, if_pos e2, List.take_succ_cons, List.take_zero,
        List.cons.injEq, and_true]
      constructor <;> (rw [byte_eq_iff]; omega)
    · simp only [List.take_succ_cons, List.take_zero, List.cons_append, List.nil_append]
      exact DecodeRune_two b b1 t' h1 h2 h3 h4
  · have hb0 := b.isLt
    have hb1 := b1.isLt
    have hb2 := b2.isLt
    rw [h]
    have g3 : (b.val = 0xE0 → 0xA0 ≤ b1.val) ∧ 0x80 ≤ b1.val := by
      by_cases c : b.val = 0xE0
      · rw [if_pos c] at h3; omega
      · rw [if_neg c] at h3; omega
    have g4 : (b.val = 0xED → b1.val ≤ 0x9F) ∧ b1.val ≤ 0xBF := by
      by_cases c : b.val = 0xED
      · rw [if_pos c] at h4; omega
      · rw [if_neg c] at h4; omega
    obtain ⟨g3a, g3b⟩ := g3
    obtain ⟨g4a, g4b⟩ := g4
    refine ⟨?_, fun t' => DecodeRune_three_take b b1 b2 t t' h1 h2 h3 h4 h5 h6, by simp only; omega⟩
    clear h3 h4 h hv
    · have e1 : ¬ ((b.val - 0xE0) * 4096 + (b1.val - 0x80) * 64 + (b2.val - 0x80) ≤ 0x7F) := by
        omega
      have e2 : ¬ ((b.val - 0xE0) * 4096 + (b1.val - 0x80) * 64 + (b2.val - 0x80) ≤ 0x7FF) := by
        omega
      have e3 : ¬ ((b.val - 0xE0) * 4096 + (b1.val - 0x80) * 64 + (b2.val - 0x80) > 0x10FFFF ∨
          (0xD800 ≤ (b.val - 0xE0) * 4096 + (b1.val - 0x80) * 64 + (b2.val - 0x80) ∧
            (b.val - 0xE0) * 4096 + (b1.val - 0x80) * 64 + (b2.val - 0x80) ≤ 0xDFFF)) := by
        omega
      have e4 : (b.val - 0xE0) * 4096 + (b1.val - 0x80) * 64 + (b2.val - 0x80) ≤ 0xFFFF := by
        omega
      simp only [EncodeRune, if_neg e1, if_neg e2, if_neg e3, if_pos e4, encode3,
        List.take_succ_cons, List.take_zero, List.cons.injEq, and_true]
      refine ⟨?_, ?_, ?_⟩ <;> (rw [byte_eq_iff]; omega)
  · have hb0 := b.isLt
    have hb1 := b1.isLt
    have hb2 := b2.isLt
    have hb3 := b3.isLt
    rw [h]
    have g3 : (b.val = 0xF0 → 0x90 ≤ b1.val) ∧ 0x80 ≤ b1.val := by
      by_cases c : b.val = 0xF0
      · rw [if_pos c] at h3; omega
      · rw [if_neg c] at h3; omega
    have g4 : (b.val = 0xF4 → b1.val ≤ 0x8F) ∧ b1.val ≤ 0xBF := by
      by_cases c : b.val = 0xF4
      · rw [if_pos c] at h4; omega
      · rw [if_neg c] at h4; omega
    obtain ⟨g3a, g3b⟩ := g3
    obtain ⟨g4a, g4b⟩ := g4
    refine ⟨?_, fun t' => DecodeRune_four_take b b1 b2 b3 t t' h1 h2 h3 h4 h5 h6 h7 h8,
      by simp only; omega⟩
    clear h3 h4 h hv
    · have e1 : ¬ ((b.val - 0xF0) * 262144 + (b1.val - 0x80) * 4096 + (b2.val - 0x80) * 64
          + (b3.val - 0x80) ≤ 0x7F) := by omega
      have e2 : ¬ ((b.val - 0xF0) * 262144 + (b1.val - 0x80) * 4096 + (b2.val - 0x80) * 64
          + (b3.val - 0x80) ≤ 0x7FF) := by omega
      have e3 : ¬ ((b.val - 0xF0) * 262144 + (b1.val - 0x80) * 4096 + (b2.val - 0x80) * 64
          + (b3.val - 0x80) > 0x10FFFF ∨
          (0xD800 ≤ (b.val - 0xF0) * 262144 + (b1.val - 0x80) * 4096 + (b2.val - 0x80) * 64
            + (b3.val - 0x80) ∧
            (b.val - 0xF0) * 262144 + (b1.val - 0x80) * 4096 + (b2.val - 0x80) * 64
              + (b3.val - 0x80) ≤ 0xDFFF)) := by
        omega
      have e4 : ¬ ((b.val - 0xF0) * 262144 + (b1.val - 0x80) * 4096 + (b2.val - 0x80) * 64
          + (b3.val - 0x80) ≤ 0xFFFF) := by omega
      simp only [EncodeRune, if_neg e1, if_neg e2, if_neg e3, if_neg e4,
        List.take_succ_cons, List.take_zero, List.cons.injEq, and_true]
      refine ⟨?_, ?_, ?_, ?_⟩ <;> (rw [byte_eq_iff]; omega)

/-! ## Theorems: JSON strings -/

theorem hexVal_hexDigit (n : Nat) (h : n < 16) : hexVal (hexDigit n) = some n := by
  have key : ∀ w : Fin 16, hexVal (hexDigit w.val) = some w.val := by decide
  exact key ⟨n, h⟩

theorem prepend_some (p a rest : List Byte) : prepend p (some (a, rest)) = some (p ++ a, rest) :=
  rfl

theorem unquoteAux_quote (F : Nat) (rest : List Byte) :
    unquoteAux (F + 1) (byte 0x22 :: rest) = some ([], rest) := by
  simp [unquoteAux, byte_val]

theorem unquoteAux_safe (F : Nat) (b : Byte) (X : List Byte) (h : htmlSafe b = true) :
    unquoteAux (F + 1) (b :: X) = prepend [b] (unquoteAux F X) := by
  simp only [htmlSafe, decide_eq_true_eq] at h
  have c1 : ¬ b.val = 0x22 := by omega
  have c2 : ¬ b.val = 0x5C := by omega
  have c3 : ¬ b.val < 0x20 := by omega
  have c4 : b.val < 0x80 := by omega
  simp only [unquoteAux, if_neg c1, if_neg c2, if_neg c3, if_pos c4]

/-- The two-character escapes for backspace and form feed read as the bytes
8 and 12, like the six-character escapes `\u0008` and `\u000c`. -/
theorem unquoteAux_short_escapes (F : Nat) (X : List Byte) :
    unquoteAux (F + 1) (byte 0x5C :: byte 0x62 :: X) = prepend [byte 8] (unquoteAux F X) ∧
    unquoteAux (F + 1) (byte 0x5C :: byte 0x66 :: X) = prepend [byte 12] (unquoteAux F X) := by
  constructor <;> simp [unquoteAux, unescape, byte_val]

theorem readHex4_00 (x y : Nat) (hx : x < 16) (hy : y < 16) (X : List Byte) :
    readHex4 (byte 0x30 :: byte 0x30 :: hexDigit x :: hexDigit y :: X) = some (x * 16 + y, X) := by
  have h0 : hexVal (byte 0x30) = some 0 := by decide
  simp only [readHex4, h0, hexVal_hexDigit x hx, hexVal_hexDigit y hy]
  simp

theorem unquoteAux_escapeByte (F : Nat) (b : Byte) (X : List Byte) (h : htmlSafe b = false)
    (hb : b.val < 0x80) :
    unquoteAux (F + 1) (escapeByte b ++ X) = prepend [b] (unquoteAux F X) := by
  simp only [htmlSafe, decide_eq_false_iff_not] at h
  have bs : (byte 0x5C).val = 0x5C := rfl
  have c1' : ¬ ((0x5C : Nat) = 0x22) := by decide
  by_cases e1 : b.val = 0x5C ∨ b.val = 0x22
  · have u : unescape b = some b := by
      simp only [unescape]
      rw [if_pos (by omega)]
    have c2 : ¬ b.val = 0x75 := by omega
    simp only [escapeByte, if_pos e1, List.cons_append, List.nil_append]
    simp only [unquoteAux, bs, if_neg c1', if_true, if_neg c2, u]
  by_cases e2 : b.val = 0x0A
  · have hbb : b = byte 0x0A := by rw [eq_comm, byte_eq_iff]; omega
    subst hbb
    simp [escapeByte, unquoteAux, unescape, byte_val]
  by_cases e3 : b.val = 0x0D
  · have hbb : b = byte 0x0D := by rw [eq_comm, byte_eq_iff]; omega
    subst hbb
    simp [escapeByte, unquoteAux, unescape, byte_val]
  by_cases e4 : b.val = 0x09
  · have hbb : b = byte 0x09 := by rw [eq_comm, byte_eq_iff]; omega
    subst hbb
    simp [escapeByte, unquoteAux, unescape, byte_val]
  · have c3 : (byte 0x75).val = 0x75 := rfl
    have hr := readHex4_00 (b.val / 16) (b.val % 16) (by omega) (by omega) X
    have hv : b.val / 16 * 16 + b.val % 16 = b.val := by omega
    rw [hv] at hr
    have c5 : ¬ (0xD800 ≤ b.val ∧ b.val < 0xE000) := by omega
    simp only [escapeByte, if_neg e1, if_neg e2, if_neg e3, if_neg e4, List.cons_append,
      List.nil_append]
    simp only [unquoteAux, bs, if_neg c1', if_true, c3, hr, if_neg c5,
      EncodeRune_ascii b.val (by omega), byte_of_val]

theorem unquoteAux_fffd (F : Nat) (X : List Byte) :
    unquoteAux (F + 1)
      ([byte 0x5C, byte 0x75, byte 0x66, byte 0x66, byte 0x66, byte 0x64] ++ X) =
      prepend (encode3 RuneError) (unquoteAux F X) := by
  have hr : readHex4 (byte 0x66 :: byte 0x66 :: byte 0x66 :: byte 0x64 :: X) = some (0xFFFD, X) := by
    have h1 : hexVal (byte 0x66) = some 15 := by decide
    have h2 : hexVal (byte 0x64) = some 13 := by decide
    simp only [readHex4, h1, h2]
  have e : EncodeRune 0xFFFD = encode3 RuneError := by decide
  have bs : (byte 0x5C).val = 0x5C := rfl
  have c1' : ¬ ((0x5C : Nat) = 0x22) := by decide
  have c3 : (byte 0x75).val = 0x75 := rfl
  have c5 : ¬ (0xD800 ≤ 0xFFFD ∧ 0xFFFD < 0xE000) := by omega
  simp only [List.cons_append, List.nil_append]
  simp only [unquoteAux, bs, if_neg c1', if_true, c3, hr, if_neg c5, e]

theorem unquoteAux_202x (F : Nat) (r : Nat) (X : List Byte) (h : r = 0x2028 ∨ r = 0x2029) :
    unquoteAux (F + 1)
      ([byte 0x5C, byte 0x75, byte 0x32, byte 0x30, byte 0x32, hexDigit (r % 16)] ++ X) =
      prepend (EncodeRune r) (unquoteAux F X) := by
  have hr : readHex4 (byte 0x32 :: byte 0x30 :: byte 0x32 :: hexDigit (r % 16) :: X)
      = some (r, X) := by
    have h1 : hexVal (byte 0x32) = some 2 := by decide
    have h2 : hexVal (byte 0x30) = some 0 := by decide
    simp only [readHex4, h1, h2, hexVal_hexDigit (r % 16) (by omega)]
    simp only [Option.some.injEq, Prod.mk.injEq, and_true]
    omega
  have bs : (byte 0x5C).val = 0x5C := rfl
  have c1' : ¬ ((0x5C : Nat) = 0x22) := by decide
  have c3 : (byte 0x75).val = 0x75 := rfl
  have c5 : ¬ (0xD800 ≤ r ∧ r < 0xE000) := by omega
  simp only [List.cons_append, List.nil_append]
  simp only [unquoteAux, bs, if_neg c1', if_true, c3, hr, if_neg c5]

theorem take_append_drop_pred (b : Byte) (tl X : List Byte) (n : Nat) (h1 : 1 ≤ n)
    (h2 : n ≤ (b :: tl).length) :
    ∃ p, (b :: tl).take n ++ X = b :: p ∧ p.drop (n - 1) = X ∧ (b :: tl).take n = b :: tl.take (n - 1) := by
  obtain ⟨m, rfl⟩ : ∃ m, n = m + 1 := ⟨n - 1, by omega⟩
  refine ⟨tl.take m ++ X, by simp, ?_, by simp⟩
  simp only [List.length_cons] at h2
  have hl : (tl.take m).length = m := by rw [List.length_take]; omega
  simp only [Nat.add_sub_cancel]
  rw [List.drop_append_of_le_length (by omega), List.drop_of_length_le (by omega)]
  rfl

theorem unquoteAux_raw (F : Nat) (b : Byte) (tl X : List Byte) (hb : 0x80 ≤ b.val)
    (hv : ¬ ((DecodeRune (b :: tl)).1 = RuneError ∧ (DecodeRune (b :: tl)).2 = 1)) :
    unquoteAux (F + 1) ((b :: tl).take (DecodeRune (b :: tl)).2 ++ X) =
      prepend ((b :: tl).take (DecodeRune (b :: tl)).2) (unquoteAux F X) := by
  obtain ⟨h1, h2, _⟩ := DecodeRune_valid b tl hb hv
  obtain ⟨w1, w2⟩ := DecodeRune_width b tl
  obtain ⟨p, hp1, hp2, _⟩ := take_append_drop_pred b tl X _ w1 w2
  have hd := h2 X
  rw [hp1] at hd ⊢
  have c1 : ¬ b.val = 0x22 := by omega
  have c2 : ¬ b.val = 0x5C := by omega
  have c3 : ¬ b.val < 0x20 := by omega
  have c4 : ¬ b.val < 0x80 := by omega
  simp only [unquoteAux, if_neg c1, if_neg c2, if_neg c3, if_neg c4, hd, h1, hp2]

theorem escapeByte_length_pos (b : Byte) : 1 ≤ (escapeByte b).length := by
  unfold escapeByte
  split_ifs <;> simp

theorem drop_pred_length (b : Byte) (tl : List Byte) (n fuel : Nat)
    (hs : (b :: tl).length ≤ fuel + 1) : (tl.drop (n - 1)).length ≤ fuel := by
  simp only [List.length_cons] at hs
  rw [List.length_drop]
  omega

/-- Reading back what `json.Marshal` writes between the quotes of a string
gives the string coerced to valid UTF-8, and leaves the text after the
closing quote. -/
theorem unquoteAux_jsonEscape (fuel : Nat) : ∀ (s : List Byte) (F : Nat) (rest : List Byte),
    s.length ≤ fuel → (jsonEscape fuel s).length < F →
    unquoteAux F (jsonEscape fuel s ++ byte 0x22 :: rest) = some (toValidUTF8Aux fuel s, rest) := by
  induction fuel with
  | zero =>
    intro s F rest hs hF
    have hnil : s = [] := List.length_eq_zero.mp (by omega)
    subst hnil
    obtain ⟨F', rfl⟩ : ∃ F', F = F' + 1 := ⟨F - 1, by omega⟩
    simp only [jsonEscape, toValidUTF8Aux, List.nil_append]
    exact unquoteAux_quote F' rest
  | succ n ih =>
    intro s F rest hs hF
    obtain ⟨F', rfl⟩ : ∃ F', F = F' + 1 := ⟨F - 1, by omega⟩
    cases s with
    | nil =>
      simp only [jsonEscape, toValidUTF8Aux, List.nil_append]
      exact unquoteAux_quote F' rest
    | cons b tl =>
      have htl : tl.length ≤ n := by simp only [List.length_cons] at hs; omega
      by_cases h80 : b.val < 0x80
      · have hd : DecodeRune (b :: tl) = (b.val, 1) := by simp only [DecodeRune, if_pos h80]
        have hne : ¬ (b.val = RuneError) := by
          simp only [RuneError]; omega
        have htv : toValidUTF8Aux (n + 1) (b :: tl) = b :: toValidUTF8Aux n tl := by
          simp only [toValidUTF8Aux, hd, and_true, if_neg hne, List.take_succ_cons, List.take_zero,
            Nat.sub_self, List.drop_zero, List.cons_append, List.nil_append]
        have hje : jsonEscape (n + 1) (b :: tl) =
            (if htmlSafe b then [b] else escapeByte b) ++ jsonEscape n tl := by
          simp only [jsonEscape, if_pos h80]
        rw [hje] at hF ⊢
        rw [htv, List.append_assoc]
        rw [List.length_append] at hF
        cases hsafe : htmlSafe b
        · rw [hsafe] at hF
          simp only [Bool.false_eq_true, if_false] at hF ⊢
          have hl := escapeByte_length_pos b
          rw [unquoteAux_escapeByte F' b _ hsafe h80, ih tl F' rest htl (by omega), prepend_some]
          rfl
        · rw [hsafe] at hF
          simp only [if_true, List.length_singleton] at hF ⊢
          rw [List.singleton_append, unquoteAux_safe F' b _ hsafe, ih tl F' rest htl (by omega),
            prepend_some]
          rfl
      · have hb : 0x80 ≤ b.val := by omega
        by_cases herr : (DecodeRune (b :: tl)).1 = RuneError ∧ (DecodeRune (b :: tl)).2 = 1
        · have htv : toValidUTF8Aux (n + 1) (b :: tl) =
              encode3 RuneError ++ toValidUTF8Aux n tl := by
            simp only [toValidUTF8Aux, if_pos herr]
          have hje : jsonEscape (n + 1) (b :: tl) =
              [byte 0x5C, byte 0x75, byte 0x66, byte 0x66, byte 0x66, byte 0x64]
                ++ jsonEscape n tl := by
            simp only [jsonEscape, if_neg h80, if_pos herr]
          rw [hje] at hF ⊢
          rw [List.length_append] at hF
          simp only [List.length_cons, List.length_nil] at hF
          rw [htv, List.append_assoc, unquoteAux_fffd, ih tl F' rest htl (by omega), prepend_some]
        · obtain ⟨w1, w2⟩ := DecodeRune_width b tl
          obtain ⟨v1, _, _⟩ := DecodeRune_valid b tl hb herr
          have hdl := drop_pred_length b tl (DecodeRune (b :: tl)).2 n hs
          have htv : toValidUTF8Aux (n + 1) (b :: tl) =
              (b :: tl).take (DecodeRune (b :: tl)).2
                ++ toValidUTF8Aux n (tl.drop ((DecodeRune (b :: tl)).2 - 1)) := by
            simp only [toValidUTF8Aux, if_neg herr]
          by_cases hls : (DecodeRune (b :: tl)).1 = 0x2028 ∨ (DecodeRune (b :: tl)).1 = 0x2029
          · have hje : jsonEscape (n + 1) (b :: tl) =
                [byte 0x5C, byte 0x75, byte 0x32, byte 0x30, byte 0x32,
                  hexDigit ((DecodeRune (b :: tl)).1 % 16)]
                  ++ jsonEscape n (tl.drop ((DecodeRune (b :: tl)).2 - 1)) := by
              simp only [jsonEscape, if_neg h80, if_neg herr, if_pos hls]
            rw [hje] at hF ⊢
            rw [List.length_append] at hF
            simp only [List.length_cons, List.length_nil] at hF
            rw [htv, List.append_assoc, unquoteAux_202x _ _ _ hls,
              ih _ F' rest hdl (by omega), prepend_some, v1]
          · have hje : jsonEscape (n + 1) (b :: tl) =
                (b :: tl).take (DecodeRune (b :: tl)).2
                  ++ jsonEscape n (tl.drop ((DecodeRune (b :: tl)).2 - 1)) := by
              simp only [jsonEscape, if_neg h80, if_neg herr, if_neg hls]
            rw [hje] at hF ⊢
            rw [List.length_append, List.length_take] at hF
            rw [htv, List.append_assoc, unquoteAux_raw F' b tl _ hb herr,
              ih _ F' rest hdl (by omega), prepend_some]

/-- A JSON string literal followed by any text reads back as the string
coerced to valid UTF-8. -/
theorem parseValue_jsonString (s : GoString) (rest : List Byte) :
    parseValue (jsonString s ++ rest) = some (JValue.str (toValidUTF8 s), rest) := by
  have c : (byte 0x22).val = 0x22 := rfl
  simp only [jsonString, List.cons_append, List.append_assoc, List.singleton_append, parseValue,
    c, if_true, List.nil_append]
  have hl : (jsonEscape s.length s).length
      < (jsonEscape s.length s ++ byte 0x22 :: rest).length + 1 := by
    simp only [List.length_append, List.length_cons]; omega
  rw [unquoteAux_jsonEscape s.length s _ rest (le_refl _) hl]
  rfl

theorem unquoteAux_jsonString_body (s : GoString) (rest : List Byte) :
    unquoteAux ((jsonEscape s.length s ++ byte 0x22 :: rest).length + 1)
      (jsonEscape s.length s ++ byte 0x22 :: rest) = some (toValidUTF8 s, rest) := by
  have hl : (jsonEscape s.length s).length
      < (jsonEscape s.length s ++ byte 0x22 :: rest).length + 1 := by
    simp only [List.length_append, List.length_cons]; omega
  exact unquoteAux_jsonEscape s.length s _ rest (le_refl _) hl

/-- A valid UTF-8 string is left as it is by the coercion. -/
theorem toValidUTF8Aux_of_valid (fuel : Nat) : ∀ s : List Byte, s.length ≤ fuel →
    validUTF8Aux fuel s = true → toValidUTF8Aux fuel s = s := by
  induction fuel with
  | zero =>
    intro s hs _
    have hnil : s = [] := List.length_eq_zero.mp (by omega)
    subst hnil
    rfl
  | succ n ih =>
    intro s hs hv
    cases s with
    | nil => rfl
    | cons b tl =>
      obtain ⟨w1, w2⟩ := DecodeRune_width b tl
      by_cases herr : (DecodeRune (b :: tl)).1 = RuneError ∧ (DecodeRune (b :: tl)).2 = 1
      · simp only [validUTF8Aux, if_pos herr] at hv
        exact absurd hv (by decide)
      · simp only [validUTF8Aux, if_neg herr] at hv
        simp only [toValidUTF8Aux, if_neg herr]
        rw [ih _ (drop_pred_length b tl _ n hs) hv]
        obtain ⟨p, _, _, hp⟩ := take_append_drop_pred b tl [] _ w1 w2
        rw [hp, List.cons_append, List.take_append_drop]

theorem toValidUTF8_of_valid (s : GoString) (h : validUTF8 s = true) : toValidUTF8 s = s :=
  toValidUTF8Aux_of_valid s.length s (le_refl _) h

theorem toValidUTF8_nil : toValidUTF8 [] = [] := rfl

/-! ## Theorems: the fuel of the string functions is enough

Each step of these functions reads at least one byte, so the length of the
text is enough fuel: more fuel gives the same result. -/

theorem jsonEscape_fuel (f1 : Nat) : ∀ (f2 : Nat) (s : List Byte), s.length ≤ f1 →
    s.length ≤ f2 → jsonEscape f1 s = jsonEscape f2 s := by
  induction f1 with
  | zero =>
    intro f2 s h1 _
    have hnil : s = [] := List.length_eq_zero.mp (by omega)
    subst hnil
    cases f2 <;> rfl
  | succ n ih =>
    intro f2 s h1 h2
    cases s with
    | nil => cases f2 <;> rfl
    | cons b tl =>
      obtain ⟨m, rfl⟩ : ∃ m, f2 = m + 1 := ⟨f2 - 1, by simp only [List.length_cons] at h2; omega⟩
      have t1 : tl.length ≤ n := by simp only [List.length_cons] at h1; omega
      have t2 : tl.length ≤ m := by simp only [List.length_cons] at h2; omega
      have d1 := drop_pred_length b tl (DecodeRune (b :: tl)).2 n h1
      have d2 := drop_pred_length b tl (DecodeRune (b :: tl)).2 m h2
      simp only [jsonEscape, ih m tl t1 t2, ih m _ d1 d2]

theorem toValidUTF8Aux_fuel (f1 : Nat) : ∀ (f2 : Nat) (s : List Byte), s.length ≤ f1 →
    s.length ≤ f2 → toValidUTF8Aux f1 s = toValidUTF8Aux f2 s := by
  induction f1 with
  | zero =>
    intro f2 s h1 _
    have hnil : s = [] := List.length_eq_zero.mp (by omega)
    subst hnil
    cases f2 <;> rfl
  | succ n ih =>
    intro f2 s h1 h2
    cases s with
    | nil => cases f2 <;> rfl
    | cons b tl =>
      obtain ⟨m, rfl⟩ : ∃ m, f2 = m + 1 := ⟨f2 - 1, by simp only [List.length_cons] at h2; omega⟩
      have t1 : tl.length ≤ n := by simp only [List.length_cons] at h1; omega
      have t2 : tl.length ≤ m := by simp only [List.length_cons] at h2; omega
      have d1 := drop_pred_length b tl (DecodeRune (b :: tl)).2 n h1
      have d2 := drop_pred_length b tl (DecodeRune (b :: tl)).2 m h2
      simp only [toValidUTF8Aux, ih m tl t1 t2, ih m _ d1 d2]

/-- The coercion reads its whole input: what it returns is empty only for
the empty string. -/
theorem toValidUTF8_eq_nil (s : GoString) : toValidUTF8 s = [] ↔ s = [] := by
  constructor
  · intro h
    cases s with
    | nil => rfl
    | cons b tl =>
      exfalso
      obtain ⟨w1, _⟩ := DecodeRune_width b tl
      simp only [toValidUTF8, List.length_cons, toValidUTF8Aux] at h
      split at h
      · simp [encode3] at h
      · obtain ⟨m, hm⟩ : ∃ m, (DecodeRune (b :: tl)).2 = m + 1 := ⟨_, (Nat.sub_add_cancel w1).symm⟩
        rw [hm] at h
        simp at h
  · intro h
    rw [h]
    rfl

/-- The blocks of a text, put together again, are the text. -/
theorem chunks_join {α : Type} (n : Nat) (hn : 0 < n) (fuel : Nat) : ∀ l : List α,
    l.length ≤ fuel → (chunks n fuel l).flatten = l := by
  induction fuel with
  | zero =>
    intro l hl
    have hnil : l = [] := List.length_eq_zero.mp (by omega)
    subst hnil
    rfl
  | succ f ih =>
    intro l hl
    cases l with
    | nil => rfl
    | cons x xs =>
      have hd : ((x :: xs).drop n).length ≤ f := by
        rw [List.length_drop]
        simp only [List.length_cons] at hl ⊢
        omega
      simp only [chunks, List.flatten_cons, ih _ hd, List.take_append_drop]

/-! ## Theorems: JSON numbers -/

theorem digitsValue_append (ds : List Byte) (d : Byte) :
    digitsValue (ds ++ [d]) = digitsValue ds * 10 + (d.val - 48) := by
  simp only [digitsValue, List.foldl_append, List.foldl_cons, List.foldl_nil]

theorem head?_append_of_ne_nil (ds : List Byte) (x : List Byte) (h : ds ≠ []) :
    (ds ++ x).head? = ds.head? := by
  cases ds with
  | nil => exact absurd rfl h
  | cons a t => rfl

/-- What `decimalAux` puts in front of `acc`: the decimal digits of `n`,
without a leading zero. -/
theorem decimalAux_spec (fuel : Nat) : ∀ (n : Nat) (acc : List Byte), n < fuel →
    ∃ ds, decimalAux fuel n acc = ds ++ acc ∧ ds ≠ [] ∧
      (∀ d ∈ ds, 48 ≤ d.val ∧ d.val ≤ 57) ∧ digitsValue ds = n ∧
      (ds.head? = some (byte 48) → ds = [byte 48]) := by
  induction fuel with
  | zero => intro n acc h; omega
  | succ f ih =>
    intro n acc h
    by_cases h10 : n < 10
    · refine ⟨[byte (48 + n)], by simp only [decimalAux, if_pos h10, List.singleton_append],
        by simp, ?_, ?_, ?_⟩
      · intro d hd
        rw [List.mem_singleton] at hd
        subst hd
        rw [byte_val]; omega
      · simp only [digitsValue, List.foldl_cons, List.foldl_nil, byte_val]; omega
      · intro hh
        simp only [List.head?_cons, Option.some.injEq] at hh
        rw [hh]
    · obtain ⟨ds, h1, h2, h3, h4, h5⟩ := ih (n / 10) (byte (48 + n % 10) :: acc) (by omega)
      refine ⟨ds ++ [byte (48 + n % 10)], ?_, by simp, ?_, ?_, ?_⟩
      · simp only [decimalAux, if_neg h10, h1, List.append_assoc, List.singleton_append]
      · intro d hd
        rw [List.mem_append, List.mem_singleton] at hd
        rcases hd with hd | hd
        · exact h3 d hd
        · subst hd
          rw [byte_val]; omega
      · rw [digitsValue_append, h4, byte_val]; omega
      · intro hh
        rw [head?_append_of_ne_nil ds _ h2] at hh
        have e := h5 hh
        rw [e] at h4
        simp only [digitsValue, List.foldl_cons, List.foldl_nil, byte_val] at h4
        omega

theorem readDigits_append (ds rest : List Byte) (hd : ∀ d ∈ ds, 48 ≤ d.val ∧ d.val ≤ 57)
    (hr : ∀ r, rest.head? = some r → ¬ (48 ≤ r.val ∧ r.val ≤ 57)) :
    readDigits (ds ++ rest) = (ds, rest) := by
  induction ds with
  | nil =>
    cases rest with
    | nil => rfl
    | cons r rs =>
      have := hr r rfl
      simp only [List.nil_append, readDigits, if_neg this]
  | cons d t ih =>
    have h1 := hd d (by simp)
    have h2 := ih (fun x hx => hd x (by simp [hx]))
    rw [List.cons_append, readDigits, if_pos h1, h2]

theorem parseDigits_digits (neg : Bool) (ds rest : List Byte) (hne : ds ≠ [])
    (hd : ∀ d ∈ ds, 48 ≤ d.val ∧ d.val ≤ 57)
    (hz : ds.head? = some (byte 48) → ds = [byte 48])
    (hr : rest.head? = some (byte 0x2C) ∨ rest.head? = some (byte 0x7D))
    (hv : -(2 ^ 63) ≤ (if neg then -(digitsValue ds : Int) else (digitsValue ds : Int)) ∧
      (if neg then -(digitsValue ds : Int) else (digitsValue ds : Int)) ≤ 2 ^ 63 - 1) :
    parseDigits neg (ds ++ rest) =
      some ((if neg then -(digitsValue ds : Int) else (digitsValue ds : Int)), rest) := by
  have hrd : readDigits (ds ++ rest) = (ds, rest) := by
    apply readDigits_append ds rest hd
    intro r hh
    rcases hr with hr | hr <;> rw [hr] at hh <;>
      (simp only [Option.some.injEq] at hh; subst hh; rw [byte_val]; omega)
  have c2 : ¬ (1 < ds.length ∧ ds.head? = some (byte 48)) := by
    rintro ⟨hl, hh⟩
    rw [hz hh] at hl
    simp at hl
  have c3 : ¬ (rest.head? = some (byte 0x2E) ∨ rest.head? = some (byte 0x65)
      ∨ rest.head? = some (byte 0x45)) := by
    rcases hr with hr | hr <;> rw [hr] <;> decide
  simp only [parseDigits, hrd, if_neg hne, if_neg c2, if_neg c3, if_pos hv]

/-- An `int64` written by `json.Marshal` and followed by a comma or a closing
brace reads back as itself. -/
theorem parseInt_formatInt (v : Int) (rest : List Byte) (h1 : -(2 ^ 63) ≤ v)
    (h2 : v ≤ 2 ^ 63 - 1)
    (hr : rest.head? = some (byte 0x2C) ∨ rest.head? = some (byte 0x7D)) :
    parseInt (formatInt v ++ rest) = some (v, rest) := by
  obtain ⟨ds, e1, e2, e3, e4, e5⟩ := decimalAux_spec (v.natAbs + 1) v.natAbs [] (by omega)
  rw [List.append_nil] at e1
  by_cases hneg : v < 0
  · have c : (byte 0x2D).val = 0x2D := rfl
    simp only [formatInt, if_pos hneg, e1, List.cons_append, parseInt, c, if_true]
    have hval : (if true = true then -(digitsValue ds : Int) else (digitsValue ds : Int)) = v := by
      rw [if_pos rfl, e4]; omega
    have := parseDigits_digits true ds rest e2 e3 e5 hr (by rw [hval]; exact ⟨h1, h2⟩)
    rw [hval] at this
    exact this
  · obtain ⟨d, t, rfl⟩ : ∃ d t, ds = d :: t := by
      cases ds with
      | nil => exact absurd rfl e2
      | cons d t => exact ⟨d, t, rfl⟩
    have hd := e3 d (by simp)
    have c : ¬ d.val = 0x2D := by omega
    simp only [formatInt, if_neg hneg, e1, List.cons_append, parseInt, if_neg c]
    have hval : (if false = true then -(digitsValue (d :: t) : Int)
        else (digitsValue (d :: t) : Int)) = v := by
      rw [if_neg (by decide), e4]; omega
    have := parseDigits_digits false (d :: t) rest e2 e3 e5 hr (by rw [hval]; exact ⟨h1, h2⟩)
    rw [hval] at this
    exact this

/-! ## Theorems: JSON objects -/

theorem formatInt_head (v : Int) : ∃ b tl, formatInt v = b :: tl ∧ b.val ≠ 0x22 := by
  obtain ⟨ds, e1, e2, e3, _, _⟩ := decimalAux_spec (v.natAbs + 1) v.natAbs [] (by omega)
  rw [List.append_nil] at e1
  by_cases hneg : v < 0
  · exact ⟨byte 0x2D, ds, by simp only [formatInt, if_pos hneg, e1], by decide⟩
  · cases ds with
    | nil => exact absurd rfl e2
    | cons d t =>
      have hd := e3 d (by simp)
      exact ⟨d, t, by simp only [formatInt, if_neg hneg, e1], by omega⟩

/-- A value written by `json.Marshal` and followed by a comma or a closing
brace reads back coerced. -/
theorem parseValue_marshalValue (v : JValue) (rest : List Byte) (hv : v.isInt64)
    (hr : rest.head? = some (byte 0x2C) ∨ rest.head? = some (byte 0x7D)) :
    parseValue (marshalValue v ++ rest) = some (v.coerce, rest) := by
  cases v with
  | str s => exact parseValue_jsonString s rest
  | int n =>
    obtain ⟨b, tl, e, hb⟩ := formatInt_head n
    have hp := parseInt_formatInt n rest hv.1 hv.2 hr
    simp only [marshalValue, JValue.coerce]
    rw [e] at hp ⊢
    rw [List.cons_append] at hp ⊢
    simp only [parseValue, if_neg hb, hp, Option.map_some']

theorem marshalMembers_length (sep : Byte) (ms : JObject) :
    ms.length ≤ (marshalMembers sep ms).length := by
  induction ms generalizing sep with
  | nil => simp [marshalMembers]
  | cons m ms ih =>
    obtain ⟨k, v⟩ := m
    have := ih (byte 0x2C)
    simp only [marshalMembers, List.length_cons, List.length_append]
    omega

theorem marshalMembers_head (ms : JObject) (rest : List Byte) :
    (marshalMembers (byte 0x2C) ms ++ byte 0x7D :: rest).head? = some (byte 0x2C) ∨
    (marshalMembers (byte 0x2C) ms ++ byte 0x7D :: rest).head? = some (byte 0x7D) := by
  cases ms with
  | nil => right; rfl
  | cons m ms => left; rfl

/-- The members written after an opening brace or a comma read back
coerced, up to the closing brace. -/
theorem parseMembers_marshal : ∀ (ms : JObject) (k : GoString) (v : JValue) (F : Nat)
    (rest : List Byte), ms.length < F → (∀ m ∈ (k, v) :: ms, m.2.isInt64) →
    parseMembers F (jsonString k ++ (byte 0x3A :: (marshalValue v ++
      (marshalMembers (byte 0x2C) ms ++ byte 0x7D :: rest)))) =
      some (coerceMembers ((k, v) :: ms), rest) := by
  intro ms
  induction ms with
  | nil =>
    intro k v F rest hF hv
    obtain ⟨F', rfl⟩ : ∃ F', F = F' + 1 := ⟨F - 1, by omega⟩
    have c1 : ¬ (byte 0x22).val ≠ 0x22 := by decide
    have c2 : ¬ (byte 0x3A).val ≠ 0x3A := by decide
    have c3 : (byte 0x7D).val = 0x7D := rfl
    have hpv := parseValue_marshalValue v (marshalMembers (byte 0x2C) [] ++ byte 0x7D :: rest)
      (hv (k, v) (by simp)) (marshalMembers_head [] rest)
    have hq := unquoteAux_jsonString_body k (byte 0x3A :: (marshalValue v ++
      (marshalMembers (byte 0x2C) [] ++ byte 0x7D :: rest)))
    simp only [jsonString, List.cons_append, List.append_assoc, List.singleton_append,
      List.nil_append] at hq ⊢
    simp only [parseMembers, if_neg c1, hq, if_neg c2, hpv]
    simp only [marshalMembers, List.nil_append, c3, if_true, coerceMembers, List.map_cons,
      List.map_nil]
  | cons m ms ih =>
    intro k v F rest hF hv
    obtain ⟨k2, v2⟩ := m
    obtain ⟨F', rfl⟩ : ∃ F', F = F' + 1 := ⟨F - 1, by omega⟩
    have c1 : ¬ (byte 0x22).val ≠ 0x22 := by decide
    have c2 : ¬ (byte 0x3A).val ≠ 0x3A := by decide
    have c3 : ¬ ((0x2C : Nat) = 0x7D) := by decide
    have c4 : (byte 0x2C).val = 0x2C := rfl
    have hpv := parseValue_marshalValue v
      (marshalMembers (byte 0x2C) ((k2, v2) :: ms) ++ byte 0x7D :: rest)
      (hv (k, v) (by simp)) (marshalMembers_head _ rest)
    have hq := unquoteAux_jsonString_body k (byte 0x3A :: (marshalValue v ++
      (marshalMembers (byte 0x2C) ((k2, v2) :: ms) ++ byte 0x7D :: rest)))
    have hi := ih k2 v2 F' rest (by simp only [List.length_cons] at hF; omega)
      (fun m hm => hv m (by simp only [List.mem_cons] at hm ⊢; exact Or.inr hm))
    simp only [jsonString, List.cons_append, List.append_assoc, List.singleton_append,
      List.nil_append] at hq ⊢
    simp only [parseMembers, if_neg c1, hq, if_neg c2, hpv]
    simp only [marshalMembers, List.cons_append, List.append_assoc, c4, if_neg c3, if_true, hi]
    rfl

/-- An object written by `json.Marshal` reads back with its strings coerced
to valid UTF-8. -/
theorem parseObject_marshalObject (ms : JObject) (hv : ∀ m ∈ ms, m.2.isInt64) :
    parseObject (marshalObject ms) = some (coerceMembers ms) := by
  cases ms with
  | nil => decide
  | cons m ms =>
    obtain ⟨k, v⟩ := m
    have hl := marshalMembers_length (byte 0x2C) ms
    have c1 : ¬ (byte 0x7B).val ≠ 0x7B := by decide
    have c2 : ¬ (byte 0x22).val = 0x7D := by decide
    have hp := parseMembers_marshal ms k v
      ((jsonEscape k.length k ++ (byte 0x22 :: byte 0x3A :: (marshalValue v ++
        (marshalMembers (byte 0x2C) ms ++ [byte 0x7D])))).length + 1) [] (by
          simp only [List.length_append, List.length_cons]; omega) hv
    simp only [jsonString, List.cons_append, List.append_assoc, List.singleton_append,
      List.nil_append] at hp
    simp only [marshalObject, marshalMembers, jsonString, List.cons_append, List.append_assoc,
      List.singleton_append, List.nil_append, parseObject, if_neg c1, if_neg c2, hp]

/-! ## Theorems: the claims read back -/

theorem claim_keys_ne :
    ascii "aud" ≠ ascii "ist" ∧
    ascii "exp" ≠ ascii "ist" ∧
    ascii "exp" ≠ ascii "aud" ∧
    ascii "jti" ≠ ascii "ist" ∧
    ascii "jti" ≠ ascii "aud" ∧
    ascii "jti" ≠ ascii "exp" ∧
    ascii "iat" ≠ ascii "ist" ∧
    ascii "iat" ≠ ascii "aud" ∧
    ascii "iat" ≠ ascii "exp" ∧
    ascii "iat" ≠ ascii "jti" ∧
    ascii "iss" ≠ ascii "ist" ∧
    ascii "iss" ≠ ascii "aud" ∧
    ascii "iss" ≠ ascii "exp" ∧
    ascii "iss" ≠ ascii "jti" ∧
    ascii "iss" ≠ ascii "iat" ∧
    ascii "nbf" ≠ ascii "ist" ∧
    ascii "nbf" ≠ ascii "aud" ∧
    ascii "nbf" ≠ ascii "exp" ∧
    ascii "nbf" ≠ ascii "jti" ∧
    ascii "nbf" ≠ ascii "iat" ∧
    ascii "nbf" ≠ ascii "iss" ∧
    ascii "sub" ≠ ascii "ist" ∧
    ascii "sub" ≠ ascii "aud" ∧
    ascii "sub" ≠ ascii "exp" ∧
    ascii "sub" ≠ ascii "jti" ∧
    ascii "sub" ≠ ascii "iat" ∧
    ascii "sub" ≠ ascii "iss" ∧
    ascii "sub" ≠ ascii "nbf" := by
  decide

theorem claim_keys_valid :
    toValidUTF8 (ascii "ist") = ascii "ist" ∧
    toValidUTF8 (ascii "aud") = ascii "aud" ∧
    toValidUTF8 (ascii "exp") = ascii "exp" ∧
    toValidUTF8 (ascii "jti") = ascii "jti" ∧
    toValidUTF8 (ascii "iat") = ascii "iat" ∧
    toValidUTF8 (ascii "iss") = ascii "iss" ∧
    toValidUTF8 (ascii "nbf") = ascii "nbf" ∧
    toValidUTF8 (ascii "sub") = ascii "sub" := by
  decide

theorem setFields_append (c : OpenTokClaims) (a b : JObject) :
    setFields c (a ++ b) = (setFields c a).bind (fun c1 => setFields c1 b) := by
  induction a generalizing c with
  | nil => rfl
  | cons m ms ih =>
    rw [List.cons_append, setFields, setFields]
    cases h : setField c m with
    | none => rfl
    | some c1 => simp only [Option.some_bind, ih]

theorem coerceMembers_append (a b : JObject) :
    coerceMembers (a ++ b) = coerceMembers a ++ coerceMembers b := by
  simp only [coerceMembers, List.map_append]

theorem setField_ist (c : OpenTokClaims) (s : GoString) :
    setField c (ascii "ist", JValue.str s) = some { c with Ist := s } := by
  obtain ⟨h0, h1, h2, h3, h4, h5, h6, h7, h8, h9, h10, h11, h12, h13, h14, h15, h16, h17, h18, h19, h20, h21, h22, h23, h24, h25, h26, h27⟩ := claim_keys_ne
  simp only [setField, if_true]

theorem setField_aud (c : OpenTokClaims) (s : GoString) :
    setField c (ascii "aud", JValue.str s) = some { c with toStandardClaims := { c.toStandardClaims with Audience := s } } := by
  obtain ⟨h0, h1, h2, h3, h4, h5, h6, h7, h8, h9, h10, h11, h12, h13, h14, h15, h16, h17, h18, h19, h20, h21, h22, h23, h24, h25, h26, h27⟩ := claim_keys_ne
  simp only [setField, if_neg h0, if_true]

theorem setField_exp (c : OpenTokClaims) (v : Int) :
    setField c (ascii "exp", JValue.int v) = some { c with toStandardClaims := { c.toStandardClaims with ExpiresAt := v } } := by
  obtain ⟨h0, h1, h2, h3, h4, h5, h6, h7, h8, h9, h10, h11, h12, h13, h14, h15, h16, h17, h18, h19, h20, h21, h22, h23, h24, h25, h26, h27⟩ := claim_keys_ne
  simp only [setField, if_neg h1, if_neg h2, if_true]

theorem setField_jti (c : OpenTokClaims) (s : GoString) :
    setField c (ascii "jti", JValue.str s) = some { c with toStandardClaims := { c.toStandardClaims with Id := s } } := by
  obtain ⟨h0, h1, h2, h3, h4, h5, h6, h7, h8, h9, h10, h11, h12, h13, h14, h15, h16, h17, h18, h19, h20, h21, h22, h23, h24, h25, h26, h27⟩ := claim_keys_ne
  simp only [setField, if_neg h3, if_neg h4, if_neg h5, if_true]

theorem setField_iat (c : OpenTokClaims) (v : Int) :
    setField c (ascii "iat", JValue.int v) = some { c with toStandardClaims := { c.toStandardClaims with IssuedAt := v } } := by
  obtain ⟨h0, h1, h2, h3, h4, h5, h6, h7, h8, h9, h10, h11, h12, h13, h14, h15, h16, h17, h18, h19, h20, h21, h22, h23, h24, h25, h26, h27⟩ := claim_keys_ne
  simp only [setField, if_neg h6, if_neg h7, if_neg h8, if_neg h9, if_true]

theorem setField_iss (c : OpenTokClaims) (s : GoString) :
    setField c (ascii "iss", JValue.str s) = some { c with toStandardClaims := { c.toStandardClaims with Issuer := s } } := by
  obtain ⟨h0, h1, h2, h3, h4, h5, h6, h7, h8, h9, h10, h11, h12, h13, h14, h15, h16, h17, h18, h19, h20, h21, h22, h23, h24, h25, h26, h27⟩ := claim_keys_ne
  simp only [setField, if_neg h10, if_neg h11, if_neg h12, if_neg h13, if_neg h14, if_true]

theorem setField_nbf (c : OpenTokClaims) (v : Int) :
    setField c (ascii "nbf", JValue.int v) = some { c with toStandardClaims := { c.toStandardClaims with NotBefore := v } } := by
  obtain ⟨h0, h1, h2, h3, h4, h5, h6, h7, h8, h9, h10, h11, h12, h13, h14, h15, h16, h17, h18, h19, h20, h21, h22, h23, h24, h25, h26, h27⟩ := claim_keys_ne
  simp only [setField, if_neg h15, if_neg h16, if_neg h17, if_neg h18, if_neg h19, if_neg h20, if_true]

theorem setField_sub (c : OpenTokClaims) (s : GoString) :
    setField c (ascii "sub", JValue.str s) = some { c with toStandardClaims := { c.toStandardClaims with Subject := s } } := by
  obtain ⟨h0, h1, h2, h3, h4, h5, h6, h7, h8, h9, h10, h11, h12, h13, h14, h15, h16, h17, h18, h19, h20, h21, h22, h23, h24, h25, h26, h27⟩ := claim_keys_ne
  simp only [setField, if_neg h21, if_neg h22, if_neg h23, if_neg h24, if_neg h25, if_neg h26, if_neg h27, if_true]

theorem setFields_ist (c : OpenTokClaims) (s : GoString) :
    setFields c (coerceMembers (strField "ist" s)) =
      some { c with Ist := if s = [] then c.Ist else toValidUTF8 s } := by
  have hk : toValidUTF8 (ascii "ist") = ascii "ist" := by decide
  by_cases h : s = []
  · simp only [strField, if_pos h, coerceMembers, List.map_nil, setFields]
  · simp only [strField, if_neg h, coerceMembers, List.map_cons, List.map_nil, setFields, hk,
      JValue.coerce, setField_ist, Option.some_bind]

theorem setFields_aud (c : OpenTokClaims) (s : GoString) :
    setFields c (coerceMembers (strField "aud" s)) =
      some { c with toStandardClaims := { c.toStandardClaims with Audience := if s = [] then c.toStandardClaims.Audience else toValidUTF8 s } } := by
  have hk : toValidUTF8 (ascii "aud") = ascii "aud" := by decide
  by_cases h : s = []
  · simp only [strField, if_pos h, coerceMembers, List.map_nil, setFields]
  · simp only [strField, if_neg h, coerceMembers, List.map_cons, List.map_nil, setFields, hk,
      JValue.coerce, setField_aud, Option.some_bind]

theorem setFields_exp (c : OpenTokClaims) (v : Int) :
    setFields c (coerceMembers (intField "exp" v)) =
      some { c with toStandardClaims := { c.toStandardClaims with ExpiresAt := if v = 0 then c.toStandardClaims.ExpiresAt else v } } := by
  have hk : toValidUTF8 (ascii "exp") = ascii "exp" := by decide
  by_cases h : v = 0
  · simp only [intField, if_pos h, coerceMembers, List.map_nil, setFields]
  · simp only [intField, if_neg h, coerceMembers, List.map_cons, List.map_nil, setFields, hk,
      JValue.coerce, setField_exp, Option.some_bind]

theorem setFields_jti (c : OpenTokClaims) (s : GoString) :
    setFields c (coerceMembers (strField "jti" s)) =
      some { c with toStandardClaims := { c.toStandardClaims with Id := if s = [] then c.toStandardClaims.Id else toValidUTF8 s } } := by
  have hk : toValidUTF8 (ascii "jti") = ascii "jti" := by decide
  by_cases h : s = []
  · simp only [strField, if_pos h, coerceMembers, List.map_nil, setFields]
  · simp only [strField, if_neg h, coerceMembers, List.map_cons, List.map_nil, setFields, hk,
      JValue.coerce, setField_jti, Option.some_bind]

theorem setFields_iat (c : OpenTokClaims) (v : Int) :
    setFields c (coerceMembers (intField "iat" v)) =
      some { c with toStandardClaims := { c.toStandardClaims with IssuedAt := if v = 0 then c.toStandardClaims.IssuedAt else v } } := by
  have hk : toValidUTF8 (ascii "iat") = ascii "iat" := by decide
  by_cases h : v = 0
  · simp only [intField, if_pos h, coerceMembers, List.map_nil, setFields]
  · simp only [intField, if_neg h, coerceMembers, List.map_cons, List.map_nil, setFields, hk,
      JValue.coerce, setField_iat, Option.some_bind]

theorem setFields_iss (c : OpenTokClaims) (s : GoString) :
    setFields c (coerceMembers (strField "iss" s)) =
      some { c with toStandardClaims := { c.toStandardClaims with Issuer := if s = [] then c.toStandardClaims.Issuer else toValidUTF8 s } } := by
  have hk : toValidUTF8 (ascii "iss") = ascii "iss" := by decide
  by_cases h : s = []
  · simp only [strField, if_pos h, coerceMembers, List.map_nil, setFields]
  · simp only [strField, if_neg h, coerceMembers, List.map_cons, List.map_nil, setFields, hk,
      JValue.coerce, setField_iss, Option.some_bind]

theorem setFields_nbf (c : OpenTokClaims) (v : Int) :
    setFields c (coerceMembers (intField "nbf" v)) =
      some { c with toStandardClaims := { c.toStandardClaims with NotBefore := if v = 0 then c.toStandardClaims.NotBefore else v } } := by
  have hk : toValidUTF8 (ascii "nbf") = ascii "nbf" := by decide
  by_cases h : v = 0
  · simp only [intField, if_pos h, coerceMembers, List.map_nil, setFields]
  · simp only [intField, if_neg h, coerceMembers, List.map_cons, List.map_nil, setFields, hk,
      JValue.coerce, setField_nbf, Option.some_bind]

theorem setFields_sub (c : OpenTokClaims) (s : GoString) :
    setFields c (coerceMembers (strField "sub" s)) =
      some { c with toStandardClaims := { c.toStandardClaims with Subject := if s = [] then c.toStandardClaims.Subject else toValidUTF8 s } } := by
  have hk : toValidUTF8 (ascii "sub") = ascii "sub" := by decide
  by_cases h : s = []
  · simp only [strField, if_pos h, coerceMembers, List.map_nil, setFields]
  · simp only [strField, if_neg h, coerceMembers, List.map_cons, List.map_nil, setFields, hk,
      JValue.coerce, setField_sub, Option.some_bind]

theorem coerceMembers_intField (name : String) (v : Int)
    (hk : toValidUTF8 (ascii name) = ascii name) :
    coerceMembers (intField name v) = intField name v := by
  unfold intField
  split
  · rfl
  · simp only [coerceMembers, List.map_cons, List.map_nil, hk, JValue.coerce]

theorem ite_toValidUTF8 (s : GoString) :
    (if s = [] then ([] : GoString) else toValidUTF8 s) = toValidUTF8 s := by
  by_cases h : s = []
  · rw [if_pos h, h]; rfl
  · rw [if_neg h]

theorem ite_zero (v : Int) : (if v = 0 then (0 : Int) else v) = v := by
  by_cases h : v = 0
  · rw [if_pos h, h]
  · rw [if_neg h]

/-- Storing the members that were read back from the JSON text of some claims
gives the claims with their strings coerced to valid UTF-8. -/
theorem setFields_claimsMembers (c : OpenTokClaims) :
    setFields zeroClaims (coerceMembers (claimsMembers c)) = some c.coerce := by
  simp only [claimsMembers, coerceMembers_append, setFields_append, setFields_ist, setFields_aud,
    setFields_exp, setFields_jti, setFields_iat, setFields_iss, setFields_nbf, setFields_sub,
    Option.some_bind, zeroClaims, ite_toValidUTF8, ite_zero, OpenTokClaims.coerce]

/-! ## Theorems: the token -/

/-- The three segments of the token `jwtToken` returns. -/
theorem jwtToken_eq (ot : OpenTok) (ist : issueType) (now : Clock) (rnd : Fin 16 → Byte) :
    (jwtToken ot ist now rnd).2 =
      (EncodeSegment (marshalObject (NewWithClaims (jwtClaims ot ist now rnd)).Header) ++
        byte 0x2E :: (EncodeSegment (marshalClaims (jwtClaims ot ist now rnd)) ++
          byte 0x2E :: EncodeSegment (hmacSHA256 ot.apiSecret
            (NewWithClaims (jwtClaims ot ist now rnd)).SigningString)), none) := by
  simp only [jwtToken, Token.SignedString, Sign, Token.SigningString, NewWithClaims,
    List.append_assoc, List.cons_append]

theorem jwtToken_split (ot : OpenTok) (ist : issueType) (now : Clock) (rnd : Fin 16 → Byte) :
    splitOn (byte 0x2E) (jwtToken ot ist now rnd).2.1 =
      [EncodeSegment (marshalObject (NewWithClaims (jwtClaims ot ist now rnd)).Header),
        EncodeSegment (marshalClaims (jwtClaims ot ist now rnd)),
        EncodeSegment (hmacSHA256 ot.apiSecret
          (NewWithClaims (jwtClaims ot ist now rnd)).SigningString)] := by
  rw [jwtToken_eq]
  exact splitOn_three _ _ _ _ (EncodeSegment_no_dot _) (EncodeSegment_no_dot _)
    (EncodeSegment_no_dot _)

theorem strField_isInt64 (name : String) (s : GoString) : ∀ m ∈ strField name s, m.2.isInt64 := by
  intro m hm
  unfold strField at hm
  split at hm
  · simp at hm
  · rw [List.mem_singleton] at hm
    subst hm
    trivial

theorem intField_isInt64 (name : String) (v : Int) (h1 : -(2 ^ 63) ≤ v) (h2 : v ≤ 2 ^ 63 - 1) :
    ∀ m ∈ intField name v, m.2.isInt64 := by
  intro m hm
  unfold intField at hm
  split at hm
  · simp at hm
  · rw [List.mem_singleton] at hm
    subst hm
    exact ⟨h1, h2⟩

theorem jwtClaims_isInt64 (ot : OpenTok) (ist : issueType) (now : Clock) (rnd : Fin 16 → Byte) :
    ∀ m ∈ claimsMembers (jwtClaims ot ist now rnd), m.2.isInt64 := by
  intro m hm
  simp only [claimsMembers, List.mem_append] at hm
  rcases hm with ((((((hm | hm) | hm) | hm) | hm) | hm) | hm) | hm
  · exact strField_isInt64 _ _ m hm
  · exact strField_isInt64 _ _ m hm
  · exact intField_isInt64 _ _ (wrapInt64_bounds _).1 (wrapInt64_bounds _).2 m hm
  · exact strField_isInt64 _ _ m hm
  · exact intField_isInt64 _ _ (wrapInt64_bounds _).1 (wrapInt64_bounds _).2 m hm
  · exact strField_isInt64 _ _ m hm
  · exact intField_isInt64 _ 0 (by decide) (by decide) m hm
  · exact strField_isInt64 _ _ m hm

/-- The payload of the token reads back as the members `json.Marshal` wrote,
with their strings coerced to valid UTF-8. -/
theorem payloadMembers_jwtToken (ot : OpenTok) (ist : issueType) (now : Clock)
    (rnd : Fin 16 → Byte) :
    payloadMembers (jwtToken ot ist now rnd).2.1 =
      some (coerceMembers (claimsMembers (jwtClaims ot ist now rnd))) := by
  simp only [payloadMembers, jwtToken_split, DecodeSegment_EncodeSegment, Option.some_bind,
    marshalClaims]
  exact parseObject_marshalObject _ (jwtClaims_isInt64 ot ist now rnd)

/-- The payload of the token reads back as the claims `jwtToken` assembled,
with their strings coerced to valid UTF-8. -/
theorem decodeClaims_jwtToken (ot : OpenTok) (ist : issueType) (now : Clock)
    (rnd : Fin 16 → Byte) :
    decodeClaims (jwtToken ot ist now rnd).2.1 = some (jwtClaims ot ist now rnd).coerce := by
  simp only [decodeClaims, payloadMembers_jwtToken, Option.some_bind]
  exact setFields_claimsMembers _

theorem headerMembers_jwtToken (ot : OpenTok) (ist : issueType) (now : Clock)
    (rnd : Fin 16 → Byte) :
    headerMembers (jwtToken ot ist now rnd).2.1 =
      some [(ascii "alg", JValue.str (ascii "HS256")), (ascii "typ", JValue.str (ascii "JWT"))] := by
  simp only [headerMembers, jwtToken_split, DecodeSegment_EncodeSegment, Option.some_bind,
    NewWithClaims]
  decide

/-- The signature check of the token under any key: it passes exactly when
the key gives the HMAC-SHA256 tag the secret gave. -/
theorem verifyToken_jwtToken (ot : OpenTok) (ist : issueType) (now : Clock)
    (rnd : Fin 16 → Byte) (key : List Byte) :
    verifyToken (jwtToken ot ist now rnd).2.1 key =
      if hmacSHA256 ot.apiSecret (NewWithClaims (jwtClaims ot ist now rnd)).SigningString =
          hmacSHA256 key (NewWithClaims (jwtClaims ot ist now rnd)).SigningString then none
      else some (ascii "signature is invalid") := by
  simp only [verifyToken, jwtToken_split, Verify, DecodeSegment_EncodeSegment,
    Token.SigningString, NewWithClaims]

/-- The HMAC tag depends on the key only through its 64-byte key block. -/
theorem hmacSHA256_congr (k1 k2 msg : List Byte) (h : hmacKeyBlock k1 = hmacKeyBlock k2) :
    hmacSHA256 k1 msg = hmacSHA256 k2 msg := by
  simp only [hmacSHA256, h]

/-! ## Theorems: the token identifier -/

theorem toValidUTF8Aux_ascii (fuel : Nat) : ∀ s : List Byte, s.length ≤ fuel →
    (∀ b ∈ s, b.val < 0x80) → toValidUTF8Aux fuel s = s := by
  induction fuel with
  | zero =>
    intro s hs _
    have hnil : s = [] := List.length_eq_zero.mp (by omega)
    subst hnil
    rfl
  | succ n ih =>
    intro s hs ha
    cases s with
    | nil => rfl
    | cons b tl =>
      have h80 := ha b (by simp)
      have hd : DecodeRune (b :: tl) = (b.val, 1) := by simp only [DecodeRune, if_pos h80]
      have hne : ¬ (b.val = RuneError) := by
        simp only [RuneError]; omega
      have htl : tl.length ≤ n := by simp only [List.length_cons] at hs; omega
      simp only [toValidUTF8Aux, hd, and_true, if_neg hne, List.take_succ_cons, List.take_zero,
        Nat.sub_self, List.drop_zero, List.cons_append, List.nil_append]
      rw [ih tl htl (fun x hx => ha x (by simp [hx]))]

/-- A string of ASCII bytes is left as it is by the coercion. -/
theorem toValidUTF8_ascii (s : GoString) (h : ∀ b ∈ s, b.val < 0x80) : toValidUTF8 s = s :=
  toValidUTF8Aux_ascii s.length s (le_refl _) h

theorem hexDigit_lt (n : Nat) (h : n < 16) : (hexDigit n).val < 0x80 := by
  unfold hexDigit
  split <;> (rw [byte_val]; omega)

theorem hexEncode_ascii (u : UUID) (is : List (Fin 16)) : ∀ b ∈ hexEncode u is, b.val < 0x80 := by
  intro b hb
  simp only [hexEncode, List.mem_flatMap, List.mem_cons, List.mem_singleton,
    List.not_mem_nil, or_false] at hb
  obtain ⟨i, _, hi | hi⟩ := hb
  · rw [hi]; exact hexDigit_lt _ (by have := (u i).isLt; omega)
  · rw [hi]; exact hexDigit_lt _ (by omega)

theorem UUID_String_ascii (u : UUID) : ∀ b ∈ u.String, b.val < 0x80 := by
  intro b hb
  have hd : ∀ x ∈ ascii "-", x.val < 0x80 := by
    intro x hx
    have e : ascii "-" = [byte 45] := rfl
    rw [e, List.mem_singleton] at hx
    rw [hx, byte_val]
    omega
  simp only [UUID.String, List.mem_append] at hb
  rcases hb with (((((((hb | hb) | hb) | hb) | hb) | hb) | hb) | hb) | hb
  · exact hexEncode_ascii _ _ b hb
  · exact hd b hb
  · exact hexEncode_ascii _ _ b hb
  · exact hd b hb
  · exact hexEncode_ascii _ _ b hb
  · exact hd b hb
  · exact hexEncode_ascii _ _ b hb
  · exact hd b hb
  · exact hexEncode_ascii _ _ b hb

theorem UUID_String_ne_nil (u : UUID) : u.String ≠ [] := by
  simp [UUID.String, hexEncode]

theorem toValidUTF8_UUID_String (u : UUID) : toValidUTF8 u.String = u.String :=
  toValidUTF8_ascii _ (UUID_String_ascii u)

/-! ## Theorems: the claims about `jwtToken` -/

/-- C2: for every instance, every issue type and every clock reading in the
range of Go's `time` arithmetic, the claims `jwtToken` builds have `IssuedAt`
equal to the Unix second of the reading and `ExpiresAt` equal to that second
plus 300, and the payload of the returned token reads back with
`ExpiresAt - IssuedAt = 300` exactly. -/
theorem jwtToken_expiry_gap (ot : OpenTok) (ist : issueType) (now : Clock)
    (rnd : Fin 16 → Byte) (h : now.inRange) :
    (jwtClaims ot ist now rnd).toStandardClaims.IssuedAt = now.sec ∧
    (jwtClaims ot ist now rnd).toStandardClaims.ExpiresAt = now.sec + 300 ∧
    ∃ c, decodeClaims (jwtToken ot ist now rnd).2.1 = some c ∧
      c.toStandardClaims.IssuedAt = now.sec ∧
      c.toStandardClaims.ExpiresAt = now.sec + 300 ∧
      c.toStandardClaims.ExpiresAt - c.toStandardClaims.IssuedAt = 300 := by
  obtain ⟨h1, h2⟩ := jwtClaims_times ot ist now rnd h
  refine ⟨h1, h2, (jwtClaims ot ist now rnd).coerce, decodeClaims_jwtToken ot ist now rnd, ?_, ?_, ?_⟩
  · exact h1
  · exact h2
  · show (jwtClaims ot ist now rnd).toStandardClaims.ExpiresAt
      - (jwtClaims ot ist now rnd).toStandardClaims.IssuedAt = 300
    rw [h1, h2]
    omega

/-- Witness of C2 at `New("k1", "s1")`, issue type `project` and the clock
reading 1700000000. -/
theorem jwtToken_expiry_gap_witness :
    exampleClock.inRange ∧
    ∃ c, decodeClaims (jwtToken exampleInstance projectToken exampleClock exampleRandom).2.1
        = some c ∧
      c.toStandardClaims.IssuedAt = 1700000000 ∧
      c.toStandardClaims.ExpiresAt = 1700000300 ∧
      c.toStandardClaims.ExpiresAt - c.toStandardClaims.IssuedAt = 300 :=
  have h : exampleClock.inRange := by
    unfold Clock.inRange exampleClock
    decide
  ⟨h, (jwtToken_expiry_gap exampleInstance projectToken exampleClock exampleRandom h).2.2⟩

/-- C3, counterexample: with the API key made of the single byte `0xFF`,
which is not valid UTF-8, the issuer read back from the token is the
three-byte encoding of U+FFFD, not the key. -/
theorem jwtToken_issuer_invalid_utf8 :
    (decodeClaims (jwtToken (New [byte 0xFF] (ascii "s1")) projectToken exampleClock
        exampleRandom).2.1).map (fun c => c.toStandardClaims.Issuer)
      = some [byte 0xEF, byte 0xBF, byte 0xBD] ∧
    (decodeClaims (jwtToken (New [byte 0xFF] (ascii "s1")) projectToken exampleClock
        exampleRandom).2.1).map (fun c => c.toStandardClaims.Issuer)
      ≠ some (New [byte 0xFF] (ascii "s1")).apiKey := by
  have e : toValidUTF8 [byte 0xFF] = [byte 0xEF, byte 0xBF, byte 0xBD] := by decide
  rw [decodeClaims_jwtToken]
  simp only [Option.map_some', OpenTokClaims.coerce, jwtClaims, New, e, true_and]
  decide

/-- C3, amended: for every API key that is valid UTF-8 (the empty key and
keys with quotes, `<`, `>`, `&` and control characters included), the issuer
read back from the payload of the token is the key, byte for byte. -/
theorem jwtToken_issuer_roundtrip (ot : OpenTok) (ist : issueType) (now : Clock)
    (rnd : Fin 16 → Byte) (h : validUTF8 ot.apiKey = true) :
    ∃ c, decodeClaims (jwtToken ot ist now rnd).2.1 = some c ∧
      c.toStandardClaims.Issuer = ot.apiKey :=
  ⟨(jwtClaims ot ist now rnd).coerce, decodeClaims_jwtToken ot ist now rnd,
    toValidUTF8_of_valid ot.apiKey h⟩

/-- Witness of C3 at a key with a quote, `<`, `>`, `&`, a line feed, a
backslash, U+00E9 and U+2028. -/
theorem jwtToken_issuer_roundtrip_witness :
    validUTF8 (New (ascii "k\"<>&\n\\" ++ [byte 0xC3, byte 0xA9, byte 0xE2, byte 0x80, byte 0xA8])
      (ascii "s1")).apiKey = true ∧
    ∃ c, decodeClaims (jwtToken
        (New (ascii "k\"<>&\n\\" ++ [byte 0xC3, byte 0xA9, byte 0xE2, byte 0x80, byte 0xA8])
          (ascii "s1")) projectToken exampleClock exampleRandom).2.1 = some c ∧
      c.toStandardClaims.Issuer =
        ascii "k\"<>&\n\\" ++ [byte 0xC3, byte 0xA9, byte 0xE2, byte 0x80, byte 0xA8] :=
  ⟨by decide, jwtToken_issuer_roundtrip _ projectToken exampleClock exampleRandom (by decide)⟩

/-- C4, counterexample: with an empty API key the payload of the token has
the members `ist`, `exp`, `jti` and `iat` and no member `iss`. -/
theorem jwtToken_empty_key_omits_iss :
    (payloadMembers (jwtToken (New [] (ascii "s1")) projectToken exampleClock
        exampleRandom).2.1).map (fun ms => ms.map Prod.fst)
      = some [ascii "ist", ascii "exp", ascii "jti", ascii "iat"] := by
  have hn : exampleClock.inRange := by
    unfold Clock.inRange exampleClock
    decide
  obtain ⟨h1, h2⟩ := jwtClaims_times (New [] (ascii "s1")) projectToken exampleClock
    exampleRandom hn
  obtain ⟨k1, k2, k3, k4, k5, k6, k7, k8⟩ := claim_keys_valid
  have e1 : ¬ (projectToken = []) := by decide
  have e2 : ¬ ((exampleClock.sec + 300 : Int) = 0) := by decide
  have e3 : ¬ (exampleClock.sec = 0) := by decide
  rw [payloadMembers_jwtToken]
  simp only [Option.map_some', claimsMembers, h1, h2]
  simp only [jwtClaims, New, strField, intField, if_neg e1, if_neg e2, if_neg e3,
    if_neg (UUID_String_ne_nil _), if_true, List.append_nil, List.nil_append,
    List.cons_append, coerceMembers, List.map_cons, List.map_nil, k1, k3, k4, k5]

/-- C4, amended: for an issue type in `project`, `account` and every
instance, the payload of the token is a JSON object whose first member is
`ist` with the issue type as its value, followed by `exp` (left out when 0),
`jti`, `iat` (left out when 0) and `iss` (left out when the API key is
empty).  With a non-empty API key and a clock reading in range whose Unix
second is neither 0 nor -300, the members are exactly `ist`, `exp`, `jti`,
`iat`, `iss`, the last one holding the API key coerced to valid UTF-8. -/
theorem jwtToken_payload_members (ot : OpenTok) (ist : issueType) (now : Clock)
    (rnd : Fin 16 → Byte) (hist : ist = projectToken ∨ ist = accountToken) :
    payloadMembers (jwtToken ot ist now rnd).2.1 =
      some ((ascii "ist", JValue.str ist) ::
        (intField "exp" (jwtClaims ot ist now rnd).toStandardClaims.ExpiresAt ++
          (ascii "jti", JValue.str (uuidNew rnd).String) ::
            (intField "iat" (jwtClaims ot ist now rnd).toStandardClaims.IssuedAt ++
              coerceMembers (strField "iss" ot.apiKey)))) ∧
    (ot.apiKey ≠ [] → now.inRange → now.sec ≠ 0 → now.sec ≠ -300 →
      payloadMembers (jwtToken ot ist now rnd).2.1 =
        some [(ascii "ist", JValue.str ist), (ascii "exp", JValue.int (now.sec + 300)),
          (ascii "jti", JValue.str (uuidNew rnd).String), (ascii "iat", JValue.int now.sec),
          (ascii "iss", JValue.str (toValidUTF8 ot.apiKey))]) := by
  obtain ⟨k1, k2, k3, k4, k5, k6, k7, k8⟩ := claim_keys_valid
  have e1 : ¬ (ist = []) := by
    rcases hist with hh | hh <;> rw [hh] <;> decide
  have e4 : toValidUTF8 ist = ist := by
    rcases hist with hh | hh <;> rw [hh] <;> decide
  have hgen : payloadMembers (jwtToken ot ist now rnd).2.1 =
      some ((ascii "ist", JValue.str ist) ::
        (intField "exp" (jwtClaims ot ist now rnd).toStandardClaims.ExpiresAt ++
          (ascii "jti", JValue.str (uuidNew rnd).String) ::
            (intField "iat" (jwtClaims ot ist now rnd).toStandardClaims.IssuedAt ++
              coerceMembers (strField "iss" ot.apiKey)))) := by
    rw [payloadMembers_jwtToken]
    simp only [claimsMembers, coerceMembers_append, coerceMembers_intField _ _ k3,
      coerceMembers_intField _ _ k5, coerceMembers_intField _ _ k7]
    simp only [jwtClaims, strField, intField, if_neg e1, if_neg (UUID_String_ne_nil _), if_true,
      List.append_nil, List.nil_append, List.cons_append, coerceMembers, List.map_cons,
      List.map_nil, k1, k4, JValue.coerce, e4, toValidUTF8_UUID_String, List.append_assoc]
  refine ⟨hgen, fun hkey hnow h0 h300 => ?_⟩
  obtain ⟨h1, h2⟩ := jwtClaims_times ot ist now rnd hnow
  have e2 : ¬ (now.sec + 300 = 0) := by omega
  rw [hgen, h1, h2]
  simp only [strField, intField, if_neg e2, if_neg h0, if_neg hkey, List.cons_append,
    List.nil_append, coerceMembers, List.map_cons, List.map_nil, k6, JValue.coerce]

/-- Witness of C4 at `New("k1", "s1")` and the issue type `project`: the
payload carries `ist` equal to `project` and `iss` equal to `k1`. -/
theorem jwtToken_payload_members_witness :
    (projectToken = projectToken ∨ projectToken = accountToken) ∧
    payloadMembers (jwtToken exampleInstance projectToken exampleClock exampleRandom).2.1 =
      some [(ascii "ist", JValue.str (ascii "project")), (ascii "exp", JValue.int 1700000300),
        (ascii "jti", JValue.str (uuidNew exampleRandom).String),
        (ascii "iat", JValue.int 1700000000), (ascii "iss", JValue.str (ascii "k1"))] :=
  have hn : exampleClock.inRange := by
    unfold Clock.inRange exampleClock
    decide
  ⟨Or.inl rfl,
    (jwtToken_payload_members exampleInstance projectToken exampleClock exampleRandom
      (Or.inl rfl)).2 (by decide) hn (by decide) (by decide)⟩

/-- C5: for every instance and every issue type (`project` and `account` in
particular), `jwtToken` returns a nil error and a non-empty token with
exactly two dots: three base64url segments, the first of which is the
encoding of the header naming the algorithm HS256. -/
theorem jwtToken_three_segments (ot : OpenTok) (ist : issueType) (now : Clock)
    (rnd : Fin 16 → Byte) :
    (jwtToken ot ist now rnd).2.2 = none ∧
    (jwtToken ot ist now rnd).2.1 ≠ [] ∧
    (jwtToken ot ist now rnd).2.1.count (byte 0x2E) = 2 ∧
    headerMembers (jwtToken ot ist now rnd).2.1 =
      some [(ascii "alg", JValue.str (ascii "HS256")), (ascii "typ", JValue.str (ascii "JWT"))] ∧
    ∃ h p s, (jwtToken ot ist now rnd).2.1 = h ++ byte 0x2E :: (p ++ byte 0x2E :: s) ∧
      splitOn (byte 0x2E) (jwtToken ot ist now rnd).2.1 = [h, p, s] ∧
      h = EncodeSegment (ascii "\x7b\"alg\":\"HS256\",\"typ\":\"JWT\"\x7d") ∧
      DecodeSegment p = some (marshalClaims (jwtClaims ot ist now rnd)) ∧
      DecodeSegment s = some (hmacSHA256 ot.apiSecret (h ++ byte 0x2E :: p)) := by
  have hh : marshalObject (NewWithClaims (jwtClaims ot ist now rnd)).Header =
      ascii "\x7b\"alg\":\"HS256\",\"typ\":\"JWT\"\x7d" := by
    simp only [NewWithClaims]
    decide
  refine ⟨by rw [jwtToken_eq], ?_, ?_, headerMembers_jwtToken ot ist now rnd, _, _, _,
    by rw [jwtToken_eq], jwtToken_split ot ist now rnd, hh ▸ rfl,
    DecodeSegment_EncodeSegment _, ?_⟩
  · rw [jwtToken_eq]
    intro hnil
    have := congrArg List.length hnil
    simp only [List.length_append, List.length_cons, List.length_nil] at this
    omega
  · rw [jwtToken_eq]
    simp only [List.count_append, List.count_cons_self,
      List.count_eq_zero_of_not_mem (EncodeSegment_no_dot _)]
  · rw [DecodeSegment_EncodeSegment]
    rfl

/-- C6, counterexample: the token of `New("k1", "s1")` passes the signature
check under the secret `s1` followed by a zero byte, which is not the
instance's secret. -/
theorem verifyToken_padded_secret :
    ascii "s1" ++ [byte 0] ≠ exampleInstance.apiSecret ∧
    verifyToken (jwtToken exampleInstance projectToken exampleClock exampleRandom).2.1
      (ascii "s1" ++ [byte 0]) = none := by
  refine ⟨by decide, ?_⟩
  have hk : hmacKeyBlock exampleInstance.apiSecret = hmacKeyBlock (ascii "s1" ++ [byte 0]) := by
    decide
  rw [verifyToken_jwtToken, if_pos (hmacSHA256_congr _ _ _ hk)]

/-- C6, amended: the token passes the signature check under the instance's
secret; under any key it passes exactly when the key gives the same
HMAC-SHA256 tag of the signing input as the secret, and fails with
"signature is invalid" otherwise; a key with the same 64-byte HMAC key block
as the secret (the secret followed by zero bytes, for one) always passes. -/
theorem verifyToken_secret (ot : OpenTok) (ist : issueType) (now : Clock)
    (rnd : Fin 16 → Byte) (key : List Byte) :
    verifyToken (jwtToken ot ist now rnd).2.1 ot.apiSecret = none ∧
    (verifyToken (jwtToken ot ist now rnd).2.1 key = none ↔
      hmacSHA256 key (NewWithClaims (jwtClaims ot ist now rnd)).SigningString =
        hmacSHA256 ot.apiSecret (NewWithClaims (jwtClaims ot ist now rnd)).SigningString) ∧
    (verifyToken (jwtToken ot ist now rnd).2.1 key ≠ none →
      verifyToken (jwtToken ot ist now rnd).2.1 key = some (ascii "signature is invalid")) ∧
    (hmacKeyBlock key = hmacKeyBlock ot.apiSecret →
      verifyToken (jwtToken ot ist now rnd).2.1 key = none) := by
  refine ⟨by rw [verifyToken_jwtToken, if_pos rfl], ?_, ?_, ?_⟩
  · rw [verifyToken_jwtToken]
    constructor
    · intro h
      by_contra hne
      rw [if_neg (fun e => hne e.symm)] at h
      exact absurd h (by simp)
    · intro h
      rw [if_pos h.symm]
  · intro h
    rw [verifyToken_jwtToken] at h ⊢
    by_cases e : hmacSHA256 ot.apiSecret (NewWithClaims (jwtClaims ot ist now rnd)).SigningString
        = hmacSHA256 key (NewWithClaims (jwtClaims ot ist now rnd)).SigningString
    · rw [if_pos e] at h
      exact absurd rfl h
    · rw [if_neg e]
  · intro h
    rw [verifyToken_jwtToken, if_pos (hmacSHA256_congr _ _ _ h.symm)]

end Opentok
